import Mathlib

/-!
# Verification of the stacked-branch engine of `stak`

This development gives a shallow embedding of the metadata store, the branch
forest queries, the cycle guard, the sync engine and the merge-order engine of
the `stak` repository (files `internal/stack/tree.go`, `cmd/sync.go`,
`cmd/merge.go`, `pkg/models`), and proves or refutes the specification's
claims about them.

The metadata store (git config, external to the repository's own code) is
modelled as a finite association list from branch names to `(parent,
review-id, frozen)` records; an absent key reads as the zero record, matching
the spec's description of the flat key-value store.  The external world
consulted by the engines (local/remote branch existence, PR states, rebase
outcomes) is a record of functions; engine side effects are recorded as an
explicit trace.
-/

set_option autoImplicit false
set_option linter.unusedVariables false

namespace Stak

/-- Metadata triple stored per branch (spec section 3): `parent`, `reviewID`
(called `PRNumber` in `pkg/models`), `frozen`.  The zero record denotes an
absent entry. -/
structure BranchMeta where
  parent : String
  prNumber : Int
  frozen : String
  deriving DecidableEq, Repr

/-- The all-absent record read back for untracked branches. -/
def BranchMeta.none : BranchMeta := ⟨"", 0, ""⟩

/-- The metadata store: an ordered association list keyed by branch name,
modelling the flat per-branch key-value store of spec section 6. -/
def MetaStore := List (String × BranchMeta)

instance : DecidableEq MetaStore := by
  unfold MetaStore; infer_instance

/-- Read a branch's metadata record; absent keys read as the zero record. -/
def lookupMeta : MetaStore → String → BranchMeta
  | [], _ => BranchMeta.none
  | (k, m) :: rest, b => if b = k then m else lookupMeta rest b

/-- Whether the store has an entry for the branch. -/
def hasKey : MetaStore → String → Bool
  | [], _ => false
  | (k, _) :: rest, b => if b = k then true else hasKey rest b

/-- Update the branch's record in place, or append a fresh entry. -/
def setMeta (s : MetaStore) (b : String) (f : BranchMeta → BranchMeta) : MetaStore :=
  match s with
  | [] => [(b, f BranchMeta.none)]
  | (k, m) :: rest => if b = k then (k, f m) :: rest else (k, m) :: setMeta rest b f

/-- `git.SetBranchParent`. -/
def setBranchParent (s : MetaStore) (b p : String) : MetaStore :=
  setMeta s b (fun m => { m with parent := p })

/-- `git.SetBranchPRNumber`. -/
def setBranchPRNumber (s : MetaStore) (b : String) (n : Int) : MetaStore :=
  setMeta s b (fun m => { m with prNumber := n })

/-- `stack.GetParent` / `git.GetBranchParent`: the stored parent, `""` when
absent. -/
def GetParent (s : MetaStore) (b : String) : String :=
  (lookupMeta s b).parent

/-- `git.GetBranchPRNumber`. -/
def getPRNumber (s : MetaStore) (b : String) : Int :=
  (lookupMeta s b).prNumber

/-- `stack.IsBranchFrozen` (tree.go): the frozen marker compared against the
literal string `"true"`. -/
def IsBranchFrozen (s : MetaStore) (b : String) : Bool :=
  (lookupMeta s b).frozen = "true"

/-- `stack.HasStackMetadata` (tree.go): a branch counts as tracked when its
stored parent is nonempty. -/
def HasStackMetadata (s : MetaStore) (b : String) : Bool :=
  GetParent s b ≠ ""

/-- `stack.WriteBranchMetadata` (tree.go): sets the parent only when the
argument is nonempty, and the PR number only when it is positive.  It can
never clear either field. -/
def WriteBranchMetadata (s : MetaStore) (branch parent : String) (prNumber : Int) : MetaStore :=
  let s1 := if parent ≠ "" then setBranchParent s branch parent else s
  if prNumber > 0 then setBranchPRNumber s1 branch prNumber else s1

/-- `stack.DeleteBranchMetadata` / `git.UnsetBranchMetadata`: drop the
branch's entry. -/
def DeleteBranchMetadata (s : MetaStore) (b : String) : MetaStore :=
  s.filter (fun e => e.1 ≠ b)

/-- Modelled from the spec: `git.GetAllStackBranches` (the git layer is not in
the sources) lists all branches having a metadata entry, i.e. the store's
keys ("list all keys matching a branch-metadata prefix", spec section 6). -/
def allStackBranches (s : MetaStore) : List String :=
  s.map Prod.fst

/-- `stack.GetChildren` (tree.go): the direct children of `b` in the rebuilt
forest.  `BuildRelationships` links a child to its parent only when the
parent itself is tracked, and `GetChildren` returns `[]` for an untracked
branch.  (Go iterates a hash map here, so among-children order is arbitrary;
we use store order.) -/
def GetChildren (s : MetaStore) (b : String) : List String :=
  if hasKey s b then (s.filter (fun e => e.2.parent = b)).map Prod.fst else []

/-! ## Parent-chain walks -/

/-- One step up the parent chain; the empty name (no branch) is absorbing. -/
def parentStep (s : MetaStore) (x : String) : String :=
  if x = "" then "" else GetParent s x

/-- `n` steps up the parent chain. -/
def parentIter (s : MetaStore) : Nat → String → String
  | 0, x => x
  | n + 1, x => parentIter s n (parentStep s x)

/-- The walk from `x` reaches the end of the chain (an absent parent). -/
def Terminates (s : MetaStore) (x : String) : Prop :=
  ∃ n, parentIter s n x = ""

/-- The stored parent relation is acyclic: every chain terminates.  This is
the Forest invariant of spec section 3. -/
def Acyclic (s : MetaStore) : Prop :=
  ∀ x, Terminates s x

theorem parentIter_empty (s : MetaStore) : ∀ n, parentIter s n "" = "" := by
  intro n
  induction n with
  | zero => rfl
  | succ n ih => simpa [parentIter, parentStep] using ih

theorem parentIter_add (s : MetaStore) (a b : Nat) (x : String) :
    parentIter s (b + a) x = parentIter s b (parentIter s a x) := by
  induction a generalizing x with
  | zero => rfl
  | succ a ih =>
    have : b + (a + 1) = (b + a) + 1 := by omega
    rw [this]
    show parentIter s (b + a) (parentStep s x) = _
    rw [ih (parentStep s x)]
    rfl

theorem parentIter_succ_outer (s : MetaStore) (n : Nat) (x : String) :
    parentIter s (n + 1) x = parentIter s n (parentStep s x) := rfl

/-- A nonempty node lying on a parent-pointer cycle has a non-terminating
chain. -/
theorem not_terminates_of_periodic (s : MetaStore) (x : String) (m : Nat)
    (hm : 0 < m) (hx : x ≠ "") (hper : parentIter s m x = x) :
    ¬ Terminates s x := by
  rintro ⟨n, hn⟩
  -- the chain is m-periodic, so reaching "" at step n means reaching it at
  -- step n % m < m; but then step m factors through "" and cannot be x.
  have hmul : ∀ q, parentIter s (q * m) x = x := by
    intro q
    induction q with
    | zero => rw [Nat.zero_mul]; rfl
    | succ q ih =>
      have he : (q + 1) * m = m + q * m := by ring
      rw [he, parentIter_add s (q * m) m, ih, hper]
  have hsplit : n = n % m + (n / m) * m := by
    have := Nat.div_add_mod' n m
    omega
  have hmod : parentIter s (n % m) x = "" := by
    have := parentIter_add s ((n / m) * m) (n % m) x
    rw [← hsplit, hmul] at this
    rw [← this, hn]
  have hlt : n % m < m := Nat.mod_lt _ hm
  have hsplit2 : m = (m - n % m) + (n % m) := by omega
  have : parentIter s m x = "" := by
    rw [hsplit2, parentIter_add s (n % m) (m - n % m) x, hmod, parentIter_empty]
  rw [hper] at this
  exact hx this

/-- Iteration through a periodic point only depends on the step count mod the
period. -/
theorem parentIter_mod_of_periodic (s : MetaStore) (y : String) (d : Nat)
    (hper : parentIter s d y = y) :
    ∀ t, parentIter s t y = parentIter s (t % d) y := by
  have hmul : ∀ q, parentIter s (q * d) y = y := by
    intro q
    induction q with
    | zero => rw [Nat.zero_mul]; rfl
    | succ q ih =>
      have he : (q + 1) * d = d + q * d := by ring
      rw [he, parentIter_add s (q * d) d, ih, hper]
  intro t
  have hsplit : t = t % d + (t / d) * d := by
    have := Nat.div_add_mod' t d
    omega
  calc parentIter s t y = parentIter s (t % d + (t / d) * d) y := by rw [← hsplit]
    _ = parentIter s (t % d) (parentIter s ((t / d) * d) y) :=
        parentIter_add s ((t / d) * d) (t % d) y
    _ = parentIter s (t % d) y := by rw [hmul]

theorem parentIter_succ_end (s : MetaStore) (n : Nat) (x : String) :
    parentIter s (n + 1) x = parentStep s (parentIter s n x) := by
  have h : n + 1 = 1 + n := by omega
  rw [h, parentIter_add s n 1 x]
  rfl

/-! ## The Cycle Guard: `stack.WouldCreateCycle` (tree.go)

The Go loop walks up from `proposedParent` carrying a visited set; it
terminates on real stores because the set of stored parent values is finite.
We realise the loop by well-founded recursion on the number of stored parent
values not yet visited. -/

/-- All parent values stored anywhere in the store. -/
def parentsVals (s : MetaStore) : List String :=
  s.map (fun e => e.2.parent)

theorem getParent_mem_vals (s : MetaStore) (b : String) :
    GetParent s b ∈ parentsVals s ∨ GetParent s b = "" := by
  induction s with
  | nil => right; rfl
  | cons e rest ih =>
    by_cases hb : b = e.1
    · left
      simp only [GetParent, lookupMeta, parentsVals, List.map_cons]
      rw [if_pos hb]
      exact List.mem_cons_self _ _
    · have hGet : GetParent (e :: rest) b = GetParent rest b := by
        simp only [GetParent, lookupMeta]
        rw [if_neg hb]
      rw [hGet]
      rcases ih with h | h
      · left
        simp only [parentsVals, List.map_cons]
        exact List.mem_cons_of_mem _ h
      · right; exact h

theorem length_filter_notMem_cons_le (l : List String) (a : String) (vis : List String) :
    (l.filter (fun v => decide (v ∉ a :: vis))).length ≤
      (l.filter (fun v => decide (v ∉ vis))).length := by
  have hsub : List.Sublist (l.filter (fun v => decide (v ∉ a :: vis)))
      (l.filter (fun v => decide (v ∉ vis))) := by
    apply List.monotone_filter_right
    intro x hx
    simp only [decide_eq_true_eq, List.mem_cons, not_or] at hx ⊢
    exact hx.2
  exact hsub.length_le

theorem length_filter_notMem_cons_lt (l : List String) (a : String) (vis : List String)
    (hal : a ∈ l) (hav : a ∉ vis) :
    (l.filter (fun v => decide (v ∉ a :: vis))).length <
      (l.filter (fun v => decide (v ∉ vis))).length := by
  induction l with
  | nil => cases hal
  | cons x xs ih =>
    rcases List.mem_cons.mp hal with hxa | hmem
    · subst hxa
      have hnew : (decide (a ∉ a :: vis)) = false := by simp
      have hold : (decide (a ∉ vis)) = true := by simpa using hav
      simp only [List.filter_cons, hnew, hold, if_false, if_true, List.length_cons]
      exact Nat.lt_succ_of_le (length_filter_notMem_cons_le xs a vis)
    · by_cases hxvis : x ∈ vis
      · have hnew : (decide (x ∉ a :: vis)) = false := by
          simp [List.mem_cons, hxvis]
        have hold : (decide (x ∉ vis)) = false := by simpa using hxvis
        simp only [List.filter_cons, hnew, hold, if_false]
        exact ih hmem
      · have hold : (decide (x ∉ vis)) = true := by simpa using hxvis
        by_cases hxa : x = a
        · subst hxa
          have hnew : (decide (x ∉ x :: vis)) = false := by simp
          simp only [List.filter_cons, hnew, hold, if_false, if_true, List.length_cons]
          exact Nat.lt_succ_of_le (length_filter_notMem_cons_le xs x vis)
        · have hnew : (decide (x ∉ a :: vis)) = true := by
            simp [List.mem_cons, hxvis, hxa]
          simp only [List.filter_cons, hnew, hold, if_true, List.length_cons]
          exact Nat.succ_lt_succ (ih hmem)

/-- Termination measure for the cycle-guard loop. -/
def wccMeasure (s : MetaStore) (current : String) (visited : List String) : Nat :=
  ((parentsVals s).filter (fun v => decide (v ∉ visited))).length +
    (if current ∈ parentsVals s ∨ current = "" then 0 else 1)

theorem wccMeasure_decreases (s : MetaStore) (current : String) (visited : List String)
    (h1 : ¬ current = "") (h3 : ¬ current ∈ visited) :
    wccMeasure s (GetParent s current) (current :: visited) < wccMeasure s current visited := by
  have hnext : GetParent s current ∈ parentsVals s ∨ GetParent s current = "" :=
    getParent_mem_vals s current
  unfold wccMeasure
  rw [if_pos hnext]
  by_cases hcv : current ∈ parentsVals s
  · rw [if_pos (Or.inl hcv)]
    have := length_filter_notMem_cons_lt (parentsVals s) current visited hcv h3
    omega
  · have hind : ¬ (current ∈ parentsVals s ∨ current = "") := by
      intro h; rcases h with h | h
      · exact hcv h
      · exact h1 h
    rw [if_neg hind]
    have := length_filter_notMem_cons_le (parentsVals s) current visited
    omega

/-- The walk of `stack.WouldCreateCycle` (tree.go lines 729-749): climb from
`current`, returning true on meeting `branch`, an error on revisiting a
node, false on running off the top of the chain. -/
def wccLoop (s : MetaStore) (branch current : String) (visited : List String) :
    Except String Bool :=
  if current = "" then .ok false
  else if current = branch then .ok true
  else if current ∈ visited then .error "existing cycle detected in stack"
  else wccLoop s branch (GetParent s current) (current :: visited)
termination_by wccMeasure s current visited
decreasing_by exact wccMeasure_decreases s current visited (by assumption) (by assumption)

theorem wccLoop_unfold (s : MetaStore) (branch current : String) (visited : List String) :
    wccLoop s branch current visited =
      if current = "" then .ok false
      else if current = branch then .ok true
      else if current ∈ visited then .error "existing cycle detected in stack"
      else wccLoop s branch (GetParent s current) (current :: visited) := by
  rw [wccLoop]

/-- `stack.WouldCreateCycle` (tree.go): an absent proposed parent never
cycles; self-parenting always does; otherwise walk the chain from the
proposed parent. -/
def WouldCreateCycle (s : MetaStore) (branch proposedParent : String) : Except String Bool :=
  if proposedParent = "" then .ok false
  else if branch = proposedParent then .ok true
  else wccLoop s branch proposedParent []

theorem wccLoop_ok_false_terminates (s : MetaStore) (branch : String) :
    ∀ current visited, wccLoop s branch current visited = .ok false →
      ∃ k, parentIter s k current = "" := by
  intro current visited
  induction current, visited using wccLoop.induct s branch with
  | case1 visited =>
    intro _
    exact ⟨0, rfl⟩
  | case2 visited hb =>
    rw [wccLoop_unfold, if_neg hb, if_pos rfl]
    intro h
    cases h
  | case3 current visited hc hb hv =>
    rw [wccLoop_unfold, if_neg hc, if_neg hb, if_pos hv]
    intro h
    cases h
  | case4 current visited hc hb hv ih =>
    rw [wccLoop_unfold, if_neg hc, if_neg hb, if_neg hv]
    intro h
    obtain ⟨k, hk⟩ := ih h
    refine ⟨k + 1, ?_⟩
    rw [parentIter_succ_outer]
    have : parentStep s current = GetParent s current := by
      unfold parentStep; rw [if_neg hc]
    rw [this]
    exact hk

theorem wccLoop_ok_true_hits (s : MetaStore) (branch : String) :
    ∀ current visited, wccLoop s branch current visited = .ok true →
      ∃ k, parentIter s k current = branch := by
  intro current visited
  induction current, visited using wccLoop.induct s branch with
  | case1 visited =>
    rw [wccLoop_unfold, if_pos rfl]
    intro h
    cases h
  | case2 visited hb =>
    intro _
    exact ⟨0, rfl⟩
  | case3 current visited hc hb hv =>
    rw [wccLoop_unfold, if_neg hc, if_neg hb, if_pos hv]
    intro h
    cases h
  | case4 current visited hc hb hv ih =>
    rw [wccLoop_unfold, if_neg hc, if_neg hb, if_neg hv]
    intro h
    obtain ⟨k, hk⟩ := ih h
    refine ⟨k + 1, ?_⟩
    rw [parentIter_succ_outer]
    have hstep : parentStep s current = GetParent s current := by
      unfold parentStep; rw [if_neg hc]
    rw [hstep]
    exact hk

theorem wccLoop_error_msg (s : MetaStore) (branch : String) :
    ∀ current visited e, wccLoop s branch current visited = .error e →
      e = "existing cycle detected in stack" := by
  intro current visited
  induction current, visited using wccLoop.induct s branch with
  | case1 visited =>
    intro e h
    rw [wccLoop_unfold, if_pos rfl] at h
    cases h
  | case2 visited hb =>
    intro e h
    rw [wccLoop_unfold, if_neg hb, if_pos rfl] at h
    cases h
  | case3 current visited hc hb hv =>
    intro e h
    rw [wccLoop_unfold, if_neg hc, if_neg hb, if_pos hv] at h
    cases h
    rfl
  | case4 current visited hc hb hv ih =>
    intro e h
    rw [wccLoop_unfold, if_neg hc, if_neg hb, if_neg hv] at h
    exact ih e h

/-- Main characterisation of the cycle-guard walk on an acyclic store: it
never errors, and answers true exactly when the chain from `current` meets
`branch`.  The `visited` set must be disjoint from the chain, which holds
for the initial empty set and is preserved because acyclic chains never
revisit a node. -/
theorem wccLoop_spec_acyclic (s : MetaStore) (branch : String) (hb : branch ≠ "")
    (hacyc : Acyclic s) :
    ∀ current visited,
      (∀ v ∈ visited, ∀ k, parentIter s k current ≠ v) →
      (∃ r, wccLoop s branch current visited = .ok r) ∧
      (wccLoop s branch current visited = .ok true ↔ ∃ k, parentIter s k current = branch) := by
  intro current visited
  induction current, visited using wccLoop.induct s branch with
  | case1 visited =>
    intro _
    rw [wccLoop_unfold, if_pos rfl]
    refine ⟨⟨false, rfl⟩, ?_⟩
    constructor
    · intro h; cases h
    · rintro ⟨k, hk⟩
      rw [parentIter_empty] at hk
      exact absurd hk.symm hb
  | case2 visited hb2 =>
    intro _
    rw [wccLoop_unfold, if_neg hb2, if_pos rfl]
    exact ⟨⟨true, rfl⟩, fun _ => ⟨0, rfl⟩, fun _ => rfl⟩
  | case3 current visited hc hb2 hv =>
    intro hvis
    exact absurd rfl (hvis current hv 0)
  | case4 current visited hc hb2 hv ih =>
    intro hvis
    have hstep : parentStep s current = GetParent s current := by
      unfold parentStep; rw [if_neg hc]
    -- the chain from the parent never returns to `current` (acyclicity), nor
    -- to anything already visited
    have hvis' : ∀ v ∈ current :: visited, ∀ k,
        parentIter s k (GetParent s current) ≠ v := by
      intro v hvmem k
      have hshift : parentIter s k (GetParent s current) = parentIter s (k + 1) current := by
        rw [parentIter_succ_outer, hstep]
      rcases List.mem_cons.mp hvmem with hvc | hvtail
      · rw [hshift, hvc]
        intro hper
        exact not_terminates_of_periodic s current (k + 1) (Nat.succ_pos k) hc hper
          (hacyc current)
      · rw [hshift]
        exact hvis v hvtail (k + 1)
    obtain ⟨⟨r, hr⟩, hiff⟩ := ih hvis'
    rw [wccLoop_unfold, if_neg hc, if_neg hb2, if_neg hv]
    refine ⟨⟨r, hr⟩, ?_⟩
    rw [hiff]
    constructor
    · rintro ⟨k, hk⟩
      refine ⟨k + 1, ?_⟩
      rw [parentIter_succ_outer, hstep]
      exact hk
    · rintro ⟨k, hk⟩
      cases k with
      | zero => exact absurd hk hb2
      | succ k =>
        refine ⟨k, ?_⟩
        rw [parentIter_succ_outer, hstep] at hk
        exact hk

/-! ## Store update lemmas -/

theorem lookupMeta_setMeta_self (s : MetaStore) (b : String) (f : BranchMeta → BranchMeta) :
    lookupMeta (setMeta s b f) b = f (lookupMeta s b) := by
  induction s with
  | nil => simp [setMeta, lookupMeta]
  | cons e rest ih =>
    by_cases hb : b = e.1
    · simp [setMeta, lookupMeta, hb]
    · simp [setMeta, lookupMeta, hb, ih]

theorem lookupMeta_setMeta_other (s : MetaStore) (b : String) (f : BranchMeta → BranchMeta)
    (x : String) (hx : x ≠ b) :
    lookupMeta (setMeta s b f) x = lookupMeta s x := by
  induction s with
  | nil => simp [setMeta, lookupMeta, hx]
  | cons e rest ih =>
    by_cases hb : b = e.1
    · have hxe : ¬ x = e.1 := fun h => hx (h.trans hb.symm)
      simp [setMeta, lookupMeta, hb, hxe]
    · by_cases hxe : x = e.1
      · simp [setMeta, lookupMeta, hb, hxe]
      · simp [setMeta, lookupMeta, hb, hxe, ih]

theorem GetParent_setBranchParent (s : MetaStore) (b p x : String) :
    GetParent (setBranchParent s b p) x = if x = b then p else GetParent s x := by
  by_cases hx : x = b
  · rw [if_pos hx]
    subst hx
    unfold GetParent setBranchParent
    rw [lookupMeta_setMeta_self]
  · rw [if_neg hx]
    unfold GetParent setBranchParent
    rw [lookupMeta_setMeta_other s b _ x hx]

theorem parentStep_setBranchParent_ne (s : MetaStore) (b p x : String) (hx : x ≠ b) :
    parentStep (setBranchParent s b p) x = parentStep s x := by
  unfold parentStep
  by_cases hxe : x = ""
  · rw [if_pos hxe, if_pos hxe]
  · rw [if_neg hxe, if_neg hxe, GetParent_setBranchParent, if_neg hx]

/-- Spec-side predicate (spec sections 4.2 and 8): following parent pointers
from `b` revisits `b`. -/
def Revisits (s : MetaStore) (b : String) : Prop :=
  ∃ n, 0 < n ∧ parentIter s n b = b

/-- While the chain from `p` has not yet met `b`, the chain is unaffected by
re-pointing `b`'s parent. -/
theorem chain_agree_of_ne (s : MetaStore) (b p : String) (n : Nat)
    (hmin : ∀ j, j < n →
      parentIter s j p ≠ b ∨ parentIter (setBranchParent s b p) j p ≠ b) :
    ∀ j, j ≤ n → parentIter (setBranchParent s b p) j p = parentIter s j p := by
  intro j
  induction j with
  | zero => intro _; rfl
  | succ j ih =>
    intro hj
    have hjn : j ≤ n := Nat.le_of_succ_le hj
    have heq : parentIter (setBranchParent s b p) j p = parentIter s j p := ih hjn
    have hne : parentIter s j p ≠ b := by
      rcases hmin j (Nat.lt_of_succ_le hj) with h | h
      · exact h
      · rw [heq] at h; exact h
    rw [parentIter_succ_end, parentIter_succ_end, heq,
      parentStep_setBranchParent_ne s b p _ hne]

/-- The chain from `b` after re-pointing `parent(b) := p` revisits `b` iff
the original chain from `p` meets `b`. -/
theorem revisits_iff_hits (s : MetaStore) (b p : String) (hb : b ≠ "") :
    Revisits (setBranchParent s b p) b ↔ ∃ k, parentIter s k p = b := by
  have hstep_b : parentStep (setBranchParent s b p) b = p := by
    unfold parentStep
    rw [if_neg hb, GetParent_setBranchParent, if_pos rfl]
  constructor
  · rintro ⟨n, hn0, hn⟩
    obtain ⟨m, hm⟩ : ∃ m, n = m + 1 := ⟨n - 1, by omega⟩
    subst hm
    rw [parentIter_succ_outer, hstep_b] at hn
    -- least index where the updated chain from p meets b
    have hex : ∃ m, parentIter (setBranchParent s b p) m p = b := ⟨m, hn⟩
    obtain ⟨m0, hm0, hm0min⟩ :
        ∃ m0, parentIter (setBranchParent s b p) m0 p = b ∧
          ∀ j, j < m0 → parentIter (setBranchParent s b p) j p ≠ b :=
      ⟨Nat.find hex, Nat.find_spec hex, fun j hj => Nat.find_min hex hj⟩
    have hagree := chain_agree_of_ne s b p m0
      (fun j hj => Or.inr (hm0min j hj))
    refine ⟨m0, ?_⟩
    rw [← hagree m0 (Nat.le_refl m0)]
    exact hm0
  · rintro ⟨k, hk⟩
    have hex : ∃ m, parentIter s m p = b := ⟨k, hk⟩
    obtain ⟨m0, hm0, hm0min⟩ :
        ∃ m0, parentIter s m0 p = b ∧ ∀ j, j < m0 → parentIter s j p ≠ b :=
      ⟨Nat.find hex, Nat.find_spec hex, fun j hj => Nat.find_min hex hj⟩
    have hagree := chain_agree_of_ne s b p m0 (fun j hj => Or.inl (hm0min j hj))
    refine ⟨m0 + 1, Nat.succ_pos m0, ?_⟩
    rw [parentIter_succ_outer, hstep_b, hagree m0 (Nat.le_refl m0)]
    exact hm0

/-! ## `stack.GetAncestors` (tree.go)

The Go loop walks the parent chain with no revisit guard and no bound, so it
diverges on a stored cycle.  We embed it with explicit fuel: `none` models
the loop still running after `fuel` iterations. -/

/-- The loop body of `GetAncestors`: prepend each parent found, stop at an
absent parent. -/
def getAncestorsLoop (s : MetaStore) : Nat → String → List String → Option (List String)
  | 0, _, _ => Option.none
  | fuel + 1, current, anc =>
    let parent := GetParent s current
    if parent = "" then some anc
    else getAncestorsLoop s fuel parent (parent :: anc)

/-- `stack.GetAncestors` run for `fuel` loop iterations. -/
def GetAncestorsFuel (s : MetaStore) (fuel : Nat) (b : String) : Option (List String) :=
  getAncestorsLoop s fuel b []

theorem getAncestorsLoop_some (s : MetaStore) (b : String) (d : Nat)
    (hd : parentIter s d b = "") (hmin : ∀ k, k < d → parentIter s k b ≠ "") :
    ∀ fuel k acc, k < d → d - k ≤ fuel →
      getAncestorsLoop s fuel (parentIter s k b) acc =
        some (((List.range (d - 1 - k)).map (fun i => parentIter s (d - 1 - i) b)) ++ acc) := by
  intro fuel
  induction fuel with
  | zero => intro k acc hk hfuel; omega
  | succ fuel ih =>
    intro k acc hk hfuel
    have hck : parentIter s k b ≠ "" := hmin k hk
    have hstep : GetParent s (parentIter s k b) = parentIter s (k + 1) b := by
      rw [parentIter_succ_end]
      unfold parentStep
      rw [if_neg hck]
    show (let parent := GetParent s (parentIter s k b);
      if parent = "" then some acc
      else getAncestorsLoop s fuel parent (parent :: acc)) = _
    rw [hstep]
    by_cases hnext : parentIter s (k + 1) b = ""
    · have hkd : k + 1 = d := by
        rcases Nat.lt_or_ge (k + 1) d with h | h
        · exact absurd hnext (hmin (k + 1) h)
        · omega
      rw [if_pos hnext]
      have hseg : d - 1 - k = 0 := by omega
      rw [hseg]
      simp
    · rw [if_neg hnext]
      by_cases hkd : k + 1 < d
      · have := ih (k + 1) (parentIter s (k + 1) b :: acc) hkd (by omega)
        rw [this]
        congr 1
        have hm : d - 1 - k = (d - 1 - (k + 1)) + 1 := by omega
        rw [hm, List.range_succ, List.map_append]
        simp only [List.map_cons, List.map_nil, List.append_assoc, List.cons_append,
          List.nil_append]
        congr 2
        congr 1
        omega
      · have : k + 1 = d := by omega
        rw [this] at hnext
        exact absurd hd hnext

theorem getAncestorsLoop_none (s : MetaStore) (b : String)
    (hnt : ∀ m, parentIter s m b ≠ "") :
    ∀ fuel k acc, getAncestorsLoop s fuel (parentIter s k b) acc = Option.none := by
  intro fuel
  induction fuel with
  | zero => intro k acc; rfl
  | succ fuel ih =>
    intro k acc
    have hck : parentIter s k b ≠ "" := hnt k
    have hstep : GetParent s (parentIter s k b) = parentIter s (k + 1) b := by
      rw [parentIter_succ_end]
      unfold parentStep
      rw [if_neg hck]
    show (let parent := GetParent s (parentIter s k b);
      if parent = "" then some acc
      else getAncestorsLoop s fuel parent (parent :: acc)) = _
    rw [hstep, if_neg (hnt (k + 1))]
    exact ih (k + 1) _

theorem acyclic_nil : Acyclic ([] : MetaStore) := by
  intro x
  refine ⟨1, ?_⟩
  show parentStep [] x = ""
  unfold parentStep GetParent lookupMeta
  split <;> rfl

end Stak

/-- C3: on a store whose stored parent relation is acyclic,
`WouldCreateCycle b p` never errors, and returns true exactly when, after
setting `parent(b) = p`, following parent pointers from `b` revisits `b`;
in particular self-parenting (with a real branch name) always reports a
cycle and an absent proposed parent never does. -/
theorem claim_C3_wouldCreateCycle (s : Stak.MetaStore) (hacyc : Stak.Acyclic s)
    (b p : String) (hb : b ≠ "") :
    (∃ r, Stak.WouldCreateCycle s b p = Except.ok r) ∧
    (Stak.WouldCreateCycle s b p = Except.ok true ↔
      Stak.Revisits (Stak.setBranchParent s b p) b) ∧
    (b = p → Stak.WouldCreateCycle s b p = Except.ok true) ∧
    (p = "" → Stak.WouldCreateCycle s b p = Except.ok false) := by
  by_cases hp : p = ""
  · subst hp
    unfold Stak.WouldCreateCycle
    rw [if_pos rfl]
    refine ⟨⟨false, rfl⟩, ?_, fun hbp => absurd hbp hb, fun _ => rfl⟩
    constructor
    · intro h; cases h
    · intro hrev
      exfalso
      rw [Stak.revisits_iff_hits s b "" hb] at hrev
      obtain ⟨k, hk⟩ := hrev
      rw [Stak.parentIter_empty] at hk
      exact hb hk.symm
  · by_cases hbp : b = p
    · unfold Stak.WouldCreateCycle
      rw [if_neg hp, if_pos hbp]
      refine ⟨⟨true, rfl⟩, ?_, fun _ => rfl, fun h => absurd h hp⟩
      constructor
      · intro _
        rw [Stak.revisits_iff_hits s b p hb]
        exact ⟨0, hbp.symm⟩
      · intro _; rfl
    · unfold Stak.WouldCreateCycle
      rw [if_neg hp, if_neg hbp]
      obtain ⟨⟨r, hr⟩, hiff⟩ :=
        Stak.wccLoop_spec_acyclic s b hb hacyc p [] (by intro v hv; cases hv)
      refine ⟨⟨r, hr⟩, ?_, fun h => absurd h hbp, fun h => absurd h hp⟩
      rw [hiff, Stak.revisits_iff_hits s b p hb]

/-- Witness for C3 at a concrete acyclic store. -/
theorem claim_C3_wouldCreateCycle_witness :
    ("b" : String) ≠ "" ∧
    ((∃ r, Stak.WouldCreateCycle [] "b" "" = Except.ok r) ∧
     (Stak.WouldCreateCycle [] "b" "" = Except.ok true ↔
       Stak.Revisits (Stak.setBranchParent [] "b" "") "b") ∧
     (("b" : String) = "" → Stak.WouldCreateCycle [] "b" "" = Except.ok true) ∧
     (("" : String) = "" → Stak.WouldCreateCycle [] "b" "" = Except.ok false)) :=
  ⟨by decide, claim_C3_wouldCreateCycle [] Stak.acyclic_nil "b" "" (by decide)⟩

/-- C8: when the chain from the proposed parent revisits a node without ever
reaching `branch` (a pre-existing cycle in the stored metadata),
`WouldCreateCycle` reports the dedicated error rather than answering
"no cycle". -/
theorem claim_C8_preexisting_cycle (s : Stak.MetaStore) (b p : String) (i j : Nat)
    (hij : i < j) (heq : Stak.parentIter s i p = Stak.parentIter s j p)
    (havoid : ∀ k, k ≤ j → Stak.parentIter s k p ≠ b ∧ Stak.parentIter s k p ≠ "") :
    Stak.WouldCreateCycle s b p = Except.error "existing cycle detected in stack" := by
  have hp : p ≠ "" := (havoid 0 (Nat.zero_le j)).2
  have hbp : ¬ b = p := fun h => (havoid 0 (Nat.zero_le j)).1 h.symm
  have hd0 : 0 < j - i := by omega
  have hper : Stak.parentIter s (j - i) (Stak.parentIter s i p) = Stak.parentIter s i p := by
    rw [← Stak.parentIter_add s i (j - i) p]
    have hji : j - i + i = j := by omega
    rw [hji]
    exact heq.symm
  have hall : ∀ k, Stak.parentIter s k p ≠ b ∧ Stak.parentIter s k p ≠ "" := by
    intro k
    by_cases hk : k ≤ j
    · exact havoid k hk
    · have h1 : Stak.parentIter s k p =
          Stak.parentIter s (k - i) (Stak.parentIter s i p) := by
        rw [← Stak.parentIter_add s i (k - i) p]
        congr 1
        omega
      have h2 := Stak.parentIter_mod_of_periodic s _ (j - i) hper (k - i)
      have h3 : Stak.parentIter s ((k - i) % (j - i)) (Stak.parentIter s i p) =
          Stak.parentIter s ((k - i) % (j - i) + i) p :=
        (Stak.parentIter_add s i ((k - i) % (j - i)) p).symm
      have hmod_le : (k - i) % (j - i) + i ≤ j := by
        have := Nat.mod_lt (k - i) hd0
        omega
      rw [h1, h2, h3]
      exact havoid _ hmod_le
  unfold Stak.WouldCreateCycle
  rw [if_neg hp, if_neg hbp]
  cases hres : Stak.wccLoop s b p [] with
  | error e =>
    rw [Stak.wccLoop_error_msg s b p [] e hres]
  | ok r =>
    exfalso
    cases r with
    | true =>
      obtain ⟨k, hk⟩ := Stak.wccLoop_ok_true_hits s b p [] hres
      exact (hall k).1 hk
    | false =>
      obtain ⟨k, hk⟩ := Stak.wccLoop_ok_false_terminates s b p [] hres
      exact (hall k).2 hk

/-- Witness for C8: the stored cycle x -> y -> x, reached from proposed
parent x, with branch a nowhere on it. -/
theorem claim_C8_preexisting_cycle_witness :
    (0 : Nat) < 2 ∧
    Stak.parentIter [("x", ⟨"y", 0, ""⟩), ("y", ⟨"x", 0, ""⟩)] 0 "x" =
      Stak.parentIter [("x", ⟨"y", 0, ""⟩), ("y", ⟨"x", 0, ""⟩)] 2 "x" ∧
    (∀ k, k ≤ 2 →
      Stak.parentIter [("x", ⟨"y", 0, ""⟩), ("y", ⟨"x", 0, ""⟩)] k "x" ≠ "a" ∧
      Stak.parentIter [("x", ⟨"y", 0, ""⟩), ("y", ⟨"x", 0, ""⟩)] k "x" ≠ "") ∧
    Stak.WouldCreateCycle [("x", ⟨"y", 0, ""⟩), ("y", ⟨"x", 0, ""⟩)] "a" "x" =
      Except.error "existing cycle detected in stack" :=
  ⟨by decide, by decide,
   fun k hk => by interval_cases k <;> exact ⟨by decide, by decide⟩,
   claim_C8_preexisting_cycle _ "a" "x" 0 2 (by decide) (by decide)
     (fun k hk => by interval_cases k <;> exact ⟨by decide, by decide⟩)⟩

/-- C10: on a store whose chain from `branch` terminates, `GetAncestors`
stabilises (for all sufficient fuel) on the finite root-to-leaf ancestor
list, whose `i`-th entry is the `(length - i)`-th iterated parent; and when
the chain never terminates the walk, having no revisit guard, runs forever
(returns none at every fuel) — acyclicity is necessary for termination. -/
theorem claim_C10_getAncestors (s : Stak.MetaStore) (b : String) (hb : b ≠ "") :
    (Stak.Terminates s b →
      ∃ (l : List String) (N : Nat),
        (∀ fuel, N ≤ fuel → Stak.GetAncestorsFuel s fuel b = some l) ∧
        Stak.parentIter s (l.length + 1) b = "" ∧
        (∀ i (hi : i < l.length), l.get ⟨i, hi⟩ = Stak.parentIter s (l.length - i) b)) ∧
    (¬ Stak.Terminates s b → ∀ fuel, Stak.GetAncestorsFuel s fuel b = Option.none) := by
  constructor
  · intro hterm
    have hex : ∃ d, Stak.parentIter s d b = "" := hterm
    obtain ⟨d, hd, hmin⟩ :
        ∃ d, Stak.parentIter s d b = "" ∧ ∀ k, k < d → Stak.parentIter s k b ≠ "" :=
      ⟨Nat.find hex, Nat.find_spec hex, fun k hk => Nat.find_min hex hk⟩
    have hd0 : 0 < d := by
      rcases Nat.eq_zero_or_pos d with h | h
      · rw [h] at hd
        exact absurd hd hb
      · exact h
    refine ⟨(List.range (d - 1)).map (fun i => Stak.parentIter s (d - 1 - i) b), d, ?_, ?_, ?_⟩
    · intro fuel hfuel
      have h0 := Stak.getAncestorsLoop_some s b d hd hmin fuel 0 [] hd0 (by omega)
      simp only [List.append_nil, Nat.sub_zero] at h0
      unfold Stak.GetAncestorsFuel
      exact h0
    · have hlen : ((List.range (d - 1)).map
          (fun i => Stak.parentIter s (d - 1 - i) b)).length = d - 1 := by
        simp
      rw [hlen]
      have : d - 1 + 1 = d := by omega
      rw [this]
      exact hd
    · intro i hi
      have hlen : ((List.range (d - 1)).map
          (fun i => Stak.parentIter s (d - 1 - i) b)).length = d - 1 := by
        simp
      simp only [List.get_eq_getElem, List.getElem_map, List.getElem_range, hlen]
  · intro hnt fuel
    have hnt2 : ∀ m, Stak.parentIter s m b ≠ "" := by
      intro m hm
      exact hnt ⟨m, hm⟩
    have := Stak.getAncestorsLoop_none s b hnt2 fuel 0 []
    unfold Stak.GetAncestorsFuel
    exact this

/-- Witness for C10: the one-branch store A -> main. -/
theorem claim_C10_getAncestors_witness :
    ("A" : String) ≠ "" ∧
    ((Stak.Terminates [("A", ⟨"main", 1, ""⟩)] "A" →
      ∃ (l : List String) (N : Nat),
        (∀ fuel, N ≤ fuel →
          Stak.GetAncestorsFuel [("A", ⟨"main", 1, ""⟩)] fuel "A" = some l) ∧
        Stak.parentIter [("A", ⟨"main", 1, ""⟩)] (l.length + 1) "A" = "" ∧
        (∀ i (hi : i < l.length),
          l.get ⟨i, hi⟩ = Stak.parentIter [("A", ⟨"main", 1, ""⟩)] (l.length - i) "A")) ∧
     (¬ Stak.Terminates [("A", ⟨"main", 1, ""⟩)] "A" →
      ∀ fuel, Stak.GetAncestorsFuel [("A", ⟨"main", 1, ""⟩)] fuel "A" = Option.none)) :=
  ⟨by decide, claim_C10_getAncestors [("A", ⟨"main", 1, ""⟩)] "A" (by decide)⟩

namespace Stak

/-! ## The external world and the engines' side effects

`cmd/sync.go` and `cmd/merge.go` drive external collaborators (git, the
review host).  Read-only facts (branch existence, PR states, rebase
outcomes) are supplied by functions in a `World`; mutations the engines
request are recorded in an effect trace.  Warning-only UI output is not an
effect. -/

/-- `github.PRStatus` (internal/github/pr.go). -/
structure PRStatus where
  state : String
  reviewDecision : String
  checkStates : List String
  deriving DecidableEq, Repr

/-- `PRStatus.IsApproved`. -/
def PRStatus.IsApproved (st : PRStatus) : Bool :=
  st.reviewDecision = "APPROVED"

/-- `PRStatus.IsCIPassing`: an empty rollup counts as passing, otherwise
every check must be SUCCESS. -/
def PRStatus.IsCIPassing (st : PRStatus) : Bool :=
  st.checkStates.all (fun c => c = "SUCCESS")

/-- `PRStatus.IsOpen`. -/
def PRStatus.IsOpen (st : PRStatus) : Bool :=
  st.state = "OPEN"

/-- `PRStatus.IsMerged`. -/
def PRStatus.IsMerged (st : PRStatus) : Bool :=
  st.state = "MERGED"

/-- Outcome of a `git rebase` invocation (internal/git/rebase.go reports
success, textual conflict with a file list, or another failure). -/
inductive RebaseResult where
  | ok
  | conflict (files : List String)
  | fail (msg : String)
  deriving DecidableEq, Repr

/-- Side effects requested from the external collaborators. -/
inductive Eff where
  | fetch
  | checkout (b : String)
  | resetToRemote (b : String)
  | rebase (b onto : String)
  | push (b : String) (setUpstream force : Bool)
  | mergePR (pr : Int) (method : String)
  | updatePRBase (pr : Int) (base : String)
  | setParentMeta (b p : String)
  | setPRMeta (b : String) (pr : Int)
  | deleteMeta (b : String)
  | deleteBranch (b : String)
  deriving DecidableEq, Repr

/-- The state an invocation runs against: the metadata store, the checked-out
branch, and the read-only external facts. -/
structure World where
  store : MetaStore
  current : String
  localB : String → Bool
  remoteB : String → Bool
  prState : Int → Option PRStatus
  rebaseRes : String → String → RebaseResult

/-- `stack.WriteBranchMetadata` as a world step, recording the two
conditional config writes as effects. -/
def writeBranchMetadataW (w : World) (b p : String) (pr : Int) : World × List Eff :=
  ({ w with store := WriteBranchMetadata w.store b p pr },
    (if p ≠ "" then [Eff.setParentMeta b p] else []) ++
      (if pr > 0 then [Eff.setPRMeta b pr] else []))

/-- `updateLocalBranchFromRemote` (sync.go): reset a local branch onto its
remote counterpart when both exist, returning to the original branch. -/
def updateLocalFromRemote (w : World) (b : String) : World × List Eff :=
  if w.localB b && w.remoteB b then
    (w, [Eff.checkout b, Eff.resetToRemote b, Eff.checkout w.current])
  else (w, [])

/-- `syncBranch` (sync.go lines 225-268): no-op for roots, otherwise refresh
the parent, check the branch out, rebase onto origin/parent and force-push
with lease; a conflicting rebase returns the conflict error of
`handleRebaseConflict`. -/
def syncBranch (w : World) (branch : String) : World × List Eff × Except String Unit :=
  let parent := GetParent w.store branch
  if parent = "" then (w, [], Except.ok ())
  else
    let upd := updateLocalFromRemote w parent
    let w2 := { upd.1 with current := branch }
    let e2 := upd.2 ++ [Eff.checkout branch, Eff.rebase branch ("origin/" ++ parent)]
    match w2.rebaseRes branch ("origin/" ++ parent) with
    | RebaseResult.ok =>
        (w2, e2 ++ [Eff.push branch false true], Except.ok ())
    | RebaseResult.conflict _ =>
        (w2, e2, Except.error "rebase conflict detected")
    | RebaseResult.fail msg =>
        (w2, e2, Except.error ("failed to rebase: " ++ msg))

/-- The per-child body of the merged-branch cleanup (sync.go lines 644-664):
re-point the child's metadata at the landed branch's parent (a silent no-op
for an empty parent, see `WriteBranchMetadata`), then update its PR base. -/
def cleanupChildUpdate (w : World) (parentBranch child : String) : World × List Eff :=
  let childMeta := lookupMeta w.store child
  let wr := writeBranchMetadataW w child parentBranch childMeta.prNumber
  let e2 := if childMeta.prNumber > 0
    then [Eff.updatePRBase childMeta.prNumber parentBranch] else []
  (wr.1, wr.2 ++ e2)

/-- The child loop of `checkAndCleanupMergedBranch`, head first (the Go
`for` over children). -/
def cleanupChildren (pb : String) : World → List String → World × List Eff
  | w, [] => (w, [])
  | w, c :: rest =>
    let u := cleanupChildUpdate w pb c
    let more := cleanupChildren pb u.1 rest
    (more.1, u.2 ++ more.2)

/-- `checkAndCleanupMergedBranch` (sync.go lines 606-692). -/
def checkAndCleanupMergedBranch (w : World) (branch : String) : World × List Eff × Bool :=
  let meta := lookupMeta w.store branch
  if meta.prNumber = 0 then (w, [], false)
  else
    match w.prState meta.prNumber with
    | Option.none => (w, [], false)
    | some st =>
      if st.IsMerged then
        let parentBranch := meta.parent
        let children := GetChildren w.store branch
        let step1 := cleanupChildren parentBranch w children
        let step2 := if step1.1.current = branch ∧ parentBranch ≠ "" then
            ({ step1.1 with current := parentBranch }, [Eff.checkout parentBranch])
          else (step1.1, ([] : List Eff))
        let w3 := { step2.1 with
          localB := fun x => if x = branch then false else step2.1.localB x,
          store := DeleteBranchMetadata step2.1.store branch }
        (w3, step1.2 ++ step2.2 ++ [Eff.deleteBranch branch, Eff.deleteMeta branch], true)
      else (w, [], false)

/-- Outcome recorded for a branch by the relaxation loop of `runSync`. -/
inductive SyncOutcome where
  | synced
  | skippedMissing
  | failed (msg : String)
  deriving DecidableEq, Repr

/-- One pass of the relaxation loop (sync.go lines 164-201), processing the
branch list in order.  A branch is handled once its parent is absent,
untracked or already processed; failures of `syncBranch` are warned about
and the branch still marked processed.  Note that only the eligible-branch
arm sets the progress flag: skipping a nonexistent branch marks it
processed without counting as progress. -/
def syncPassGo (all : List String) :
    List String → World → List (String × SyncOutcome) → Bool →
      World × List Eff × List (String × SyncOutcome) × Bool
  | [], w, marks, progress => (w, [], marks, progress)
  | b :: rest, w, marks, progress =>
    if (marks.map Prod.fst).contains b then syncPassGo all rest w marks progress
    else if w.localB b = false then
      syncPassGo all rest w (marks ++ [(b, SyncOutcome.skippedMissing)]) progress
    else
      let parent := GetParent w.store b
      if parent = "" ∨ ¬ all.contains parent ∨ (marks.map Prod.fst).contains parent then
        let sres := syncBranch w b
        let outcome := match sres.2.2 with
          | Except.ok _ => SyncOutcome.synced
          | Except.error msg => SyncOutcome.failed msg
        let rec2 := syncPassGo all rest sres.1 (marks ++ [(b, outcome)]) true
        (rec2.1, sres.2.1 ++ rec2.2.1, rec2.2.2)
      else syncPassGo all rest w marks progress

/-- The relaxation loop of `runSync` (sync.go lines 156-206): repeat passes
while unprocessed branches remain, within the explicit iteration bound, and
stop early when a pass makes no progress.  Returns also the number of
passes run. -/
def syncLoop (all : List String) :
    Nat → World → List (String × SyncOutcome) →
      World × List Eff × List (String × SyncOutcome) × Nat
  | 0, w, marks => (w, [], marks, 0)
  | rem + 1, w, marks =>
    if marks.length < all.length then
      let pass := syncPassGo all all w marks false
      if pass.2.2.2 then
        let more := syncLoop all rem pass.1 pass.2.2.1
        (more.1, pass.2.1 ++ more.2.1, more.2.2.1, more.2.2.2 + 1)
      else (pass.1, pass.2.1, pass.2.2.1, 1)
    else (w, [], marks, 0)

/-- Keep first occurrences (the Go code iterates a set here, so order is
arbitrary; we fix first-appearance order). -/
def dedupF (l : List String) : List String :=
  l.foldl (fun acc x => if acc.contains x then acc else acc ++ [x]) []

/-- `runSync` (sync.go): fetch, update base branches, reconcile merged
branches, then relax-sync everything in dependency order and return to the
original branch.  Errors inside the loop are warnings; the invocation
itself returns success. -/
def updateBasesRun : World → List String → World × List Eff
  | w, [] => (w, [])
  | w, p :: rest =>
    let u := updateLocalFromRemote w p
    let more := updateBasesRun u.1 rest
    (more.1, u.2 ++ more.2)

/-- The merged-branch reconciliation loop of `runSync` (sync.go lines
139-147), skipping branches with no local copy. -/
def cleanupRun : World → List String → World × List Eff
  | w, [] => (w, [])
  | w, b :: rest =>
    if w.localB b then
      let cu := checkAndCleanupMergedBranch w b
      let more := cleanupRun cu.1 rest
      (more.1, cu.2.1 ++ more.2)
    else cleanupRun w rest

def runSync (w : World) : World × List Eff × Except String Unit :=
  let e0 := [Eff.fetch]
  let all := allStackBranches w.store
  if all.length = 0 then (w, e0, Except.ok ())
  else
    let bases := dedupF (all.filterMap (fun b =>
      let p := GetParent w.store b
      if p ≠ "" ∧ ¬ all.contains p then some p else Option.none))
    let step1 := updateBasesRun w bases
    let step2 := cleanupRun step1.1 all
    let all2 := allStackBranches step2.1.store
    let loop := syncLoop all2 (all2.length + 1) step2.1 []
    let w4 := if loop.1.localB w.current then { loop.1 with current := w.current } else loop.1
    (w4, e0 ++ step1.2 ++ step2.2 ++ loop.2.1 ++ [Eff.checkout w.current], Except.ok ())

/-- Flags of the `merge` command (cmd/merge.go). -/
structure MergeFlags where
  mergeAll : Bool
  mergeMethod : String
  mergeSkipChecks : Bool
  deriving DecidableEq, Repr

/-- `updateChildAfterMerge` (merge.go lines 204-249): check the child out,
rebase it onto origin/newParent (conflicts suspend via
`handleRebaseConflict`), force-push, update the PR base, rewrite the
child's metadata. -/
def updateChildAfterMerge (w : World) (child oldParent newParent : String) :
    World × List Eff × Except String Unit :=
  let childMeta := lookupMeta w.store child
  let w1 := { w with current := child }
  let e1 := [Eff.checkout child, Eff.rebase child ("origin/" ++ newParent)]
  match w1.rebaseRes child ("origin/" ++ newParent) with
  | RebaseResult.conflict _ =>
      (w1, e1, Except.error "rebase conflict detected")
  | RebaseResult.fail msg =>
      (w1, e1, Except.error ("failed to rebase " ++ child ++ ": " ++ msg))
  | RebaseResult.ok =>
      let e2 := [Eff.push child false true]
      let e3 := if childMeta.prNumber > 0
        then [Eff.updatePRBase childMeta.prNumber newParent] else []
      let wr := writeBranchMetadataW w1 child newParent childMeta.prNumber
      (wr.1, e1 ++ e2 ++ e3 ++ wr.2, Except.ok ())

/-- The per-child loop of `mergeBranch`, aborting on the first error. -/
def updateChildrenAfterMerge (branch newBase : String) :
    World → List String → World × List Eff × Except String Unit
  | w, [] => (w, [], Except.ok ())
  | w, c :: rest =>
    let u := updateChildAfterMerge w c branch newBase
    match u.2.2 with
    | Except.error msg => (u.1, u.2.1, Except.error msg)
    | Except.ok _ =>
      let more := updateChildrenAfterMerge branch newBase u.1 rest
      (more.1, u.2.1 ++ more.2.1, more.2.2)

/-- `mergeBranch` (merge.go lines 112-202): status checks first (merged is a
no-op success, non-open is fatal, approval and CI are required unless
skipped), then land the PR, update every child, and retire the branch. -/
def mergeBranch (fl : MergeFlags) (w : World) (branch : String) :
    World × List Eff × Except String Unit :=
  let meta := lookupMeta w.store branch
  if meta.prNumber = 0 then
    (w, [], Except.error ("branch " ++ branch ++ " has no associated PR"))
  else
    match w.prState meta.prNumber with
    | Option.none => (w, [], Except.error "failed to get PR status")
    | some st =>
      if st.IsMerged then (w, [], Except.ok ())
      else if ¬ st.IsOpen then
        (w, [], Except.error ("PR #" ++ toString meta.prNumber ++
          " is not open (state: " ++ st.state ++ ")"))
      else if ¬ fl.mergeSkipChecks ∧ ¬ st.IsApproved then
        (w, [], Except.error ("PR #" ++ toString meta.prNumber ++ " is not approved"))
      else if ¬ fl.mergeSkipChecks ∧ ¬ st.IsCIPassing then
        (w, [], Except.error ("PR #" ++ toString meta.prNumber ++ " has failing CI checks"))
      else
        let e1 := [Eff.mergePR meta.prNumber fl.mergeMethod]
        let newBase := meta.parent
        let children := GetChildren w.store branch
        let upd := updateChildrenAfterMerge branch newBase w children
        match upd.2.2 with
        | Except.error msg => (upd.1, e1 ++ upd.2.1, Except.error msg)
        | Except.ok _ =>
          let step2 := if upd.1.current = branch ∧ newBase ≠ "" then
              ({ upd.1 with current := newBase }, [Eff.checkout newBase])
            else (upd.1, ([] : List Eff))
          let w3 := { step2.1 with
            localB := fun x => if x = branch then false else step2.1.localB x,
            store := DeleteBranchMetadata step2.1.store branch }
          (w3, e1 ++ upd.2.1 ++ step2.2 ++ [Eff.deleteBranch branch, Eff.deleteMeta branch],
            Except.ok ())

/-- The landing loop of `runMerge`, aborting on the first error. -/
def mergeChain (fl : MergeFlags) : World → List String → World × List Eff × Except String Unit
  | w, [] => (w, [], Except.ok ())
  | w, b :: rest =>
    let m := mergeBranch fl w b
    match m.2.2 with
    | Except.error msg => (m.1, m.2.1, Except.error msg)
    | Except.ok _ =>
      let more := mergeChain fl m.1 rest
      (more.1, m.2.1 ++ more.2.1, more.2.2)

/-- `runMerge` (merge.go lines 41-110): require tracked metadata and a PR on
the current branch, build the chain (the full ancestor chain plus the
current branch under the whole-chain flag), fetch, and land in order.  The
ancestor walk carries the fuel of `GetAncestorsFuel`; `none` models the
divergence of `GetAncestors` on a cyclic store. -/
def runMerge (fl : MergeFlags) (fuel : Nat) (w : World) :
    Option (World × List Eff × Except String Unit) :=
  let current := w.current
  if ¬ HasStackMetadata w.store current then
    some (w, [], Except.error ("branch " ++ current ++ " is not part of a stack"))
  else
    let meta := lookupMeta w.store current
    if meta.prNumber = 0 then
      some (w, [], Except.error ("branch " ++ current ++ " has no associated PR"))
    else
      match GetAncestorsFuel w.store fuel current with
      | Option.none => Option.none
      | some ancestors =>
        let chain := if fl.mergeAll then ancestors ++ [current] else [current]
        let run := mergeChain fl w chain
        some (run.1, Eff.fetch :: run.2.1, run.2.2)

end Stak

/-- C6: for a branch processed by the merge engine (checks not bypassed): an
already-landed request is a success no-op; a closed-without-landing request
is a fatal error; an unapproved request or failing checks give named
precondition errors; and in every one of these cases no effect is requested
and the world is unchanged — nothing is mutated before the checks pass. -/
theorem claim_C6_merge_preconditions (fl : Stak.MergeFlags) (w : Stak.World) (b : String)
    (st : Stak.PRStatus)
    (hsk : fl.mergeSkipChecks = false)
    (hpr : (Stak.lookupMeta w.store b).prNumber ≠ 0)
    (hst : w.prState (Stak.lookupMeta w.store b).prNumber = some st) :
    (st.IsMerged = true → Stak.mergeBranch fl w b = (w, [], Except.ok ())) ∧
    (st.IsMerged = false → st.IsOpen = false →
      Stak.mergeBranch fl w b = (w, [], Except.error ("PR #" ++
        toString (Stak.lookupMeta w.store b).prNumber ++
        " is not open (state: " ++ st.state ++ ")"))) ∧
    (st.IsMerged = false → st.IsOpen = true → st.IsApproved = false →
      Stak.mergeBranch fl w b = (w, [], Except.error ("PR #" ++
        toString (Stak.lookupMeta w.store b).prNumber ++ " is not approved"))) ∧
    (st.IsMerged = false → st.IsOpen = true → st.IsApproved = true →
      st.IsCIPassing = false →
      Stak.mergeBranch fl w b = (w, [], Except.error ("PR #" ++
        toString (Stak.lookupMeta w.store b).prNumber ++ " has failing CI checks"))) := by
  refine ⟨?_, ?_, ?_, ?_⟩
  · intro hm
    simp [Stak.mergeBranch, hpr, hst, hm]
  · intro hm ho
    simp [Stak.mergeBranch, hpr, hst, hm, ho]
  · intro hm ho ha
    simp [Stak.mergeBranch, hpr, hst, hm, ho, ha, hsk]
  · intro hm ho ha hc
    simp [Stak.mergeBranch, hpr, hst, hm, ho, ha, hc, hsk]

/-- Witness for C6 at a landed request. -/
theorem claim_C6_merge_preconditions_witness :
    (Stak.MergeFlags.mk true "squash" false).mergeSkipChecks = false ∧
    (Stak.lookupMeta [("B", ⟨"main", 5, ""⟩)] "B").prNumber ≠ 0 ∧
    ((fun n => if n = (5 : Int) then some (Stak.PRStatus.mk "MERGED" "" []) else Option.none)
        (Stak.lookupMeta [("B", ⟨"main", 5, ""⟩)] "B").prNumber =
      some (Stak.PRStatus.mk "MERGED" "" [])) ∧
    ((Stak.PRStatus.mk "MERGED" "" []).IsMerged = true →
      Stak.mergeBranch (Stak.MergeFlags.mk true "squash" false)
        (Stak.World.mk [("B", ⟨"main", 5, ""⟩)] "B" (fun _ => true) (fun _ => true)
          (fun n => if n = (5 : Int) then some (Stak.PRStatus.mk "MERGED" "" []) else Option.none)
          (fun _ _ => Stak.RebaseResult.ok)) "B" =
      (Stak.World.mk [("B", ⟨"main", 5, ""⟩)] "B" (fun _ => true) (fun _ => true)
        (fun n => if n = (5 : Int) then some (Stak.PRStatus.mk "MERGED" "" []) else Option.none)
        (fun _ _ => Stak.RebaseResult.ok), [], Except.ok ())) :=
  ⟨rfl, by decide,
   by decide,
   (claim_C6_merge_preconditions (Stak.MergeFlags.mk true "squash" false)
      (Stak.World.mk [("B", ⟨"main", 5, ""⟩)] "B" (fun _ => true) (fun _ => true)
        (fun n => if n = (5 : Int) then some (Stak.PRStatus.mk "MERGED" "" []) else Option.none)
        (fun _ _ => Stak.RebaseResult.ok)) "B" (Stak.PRStatus.mk "MERGED" "" [])
      rfl (by decide) (by decide)).1⟩

namespace Stak

theorem GetParent_setBranchPRNumber (s : MetaStore) (b : String) (n : Int) (x : String) :
    GetParent (setBranchPRNumber s b n) x = GetParent s x := by
  by_cases hx : x = b
  · subst hx
    unfold GetParent setBranchPRNumber
    rw [lookupMeta_setMeta_self]
  · unfold GetParent setBranchPRNumber
    rw [lookupMeta_setMeta_other s b _ x hx]

theorem getPRNumber_setBranchParent (s : MetaStore) (b p : String) (x : String) :
    getPRNumber (setBranchParent s b p) x = getPRNumber s x := by
  by_cases hx : x = b
  · subst hx
    unfold getPRNumber setBranchParent
    rw [lookupMeta_setMeta_self]
  · unfold getPRNumber setBranchParent
    rw [lookupMeta_setMeta_other s b _ x hx]

theorem getPRNumber_setBranchPRNumber_self (s : MetaStore) (b : String) (n : Int) :
    getPRNumber (setBranchPRNumber s b n) b = n := by
  unfold getPRNumber setBranchPRNumber
  rw [lookupMeta_setMeta_self]

end Stak

/-- C9: `WriteBranchMetadata` can only set fields, never clear them: a write
with an empty parent leaves the stored parent untouched, a write with a
zero review-id leaves the stored review-id untouched, and a branch with a
nonempty parent (or a positive review-id) still has one after any write. -/
theorem claim_C9_write_never_clears (s : Stak.MetaStore) (b p : String) (pr : Int) :
    Stak.GetParent (Stak.WriteBranchMetadata s b "" pr) b = Stak.GetParent s b ∧
    Stak.getPRNumber (Stak.WriteBranchMetadata s b p 0) b = Stak.getPRNumber s b ∧
    (Stak.GetParent s b ≠ "" → Stak.GetParent (Stak.WriteBranchMetadata s b p pr) b ≠ "") ∧
    (0 < Stak.getPRNumber s b → 0 < Stak.getPRNumber (Stak.WriteBranchMetadata s b p pr) b) := by
  refine ⟨?_, ?_, ?_, ?_⟩
  · unfold Stak.WriteBranchMetadata
    simp only [ne_eq, not_true_eq_false, if_false, ite_not]
    by_cases hpr : pr > 0
    · rw [if_pos hpr, Stak.GetParent_setBranchPRNumber]
    · rw [if_neg hpr]
  · unfold Stak.WriteBranchMetadata
    rw [if_neg (by omega : ¬ ((0 : Int) > 0))]
    by_cases hp : p ≠ ""
    · rw [if_pos hp, Stak.getPRNumber_setBranchParent]
    · rw [if_neg hp]
  · intro h
    unfold Stak.WriteBranchMetadata
    by_cases hp : p ≠ ""
    · rw [if_pos hp]
      by_cases hpr : pr > 0
      · rw [if_pos hpr, Stak.GetParent_setBranchPRNumber,
          Stak.GetParent_setBranchParent, if_pos rfl]
        exact hp
      · rw [if_neg hpr, Stak.GetParent_setBranchParent, if_pos rfl]
        exact hp
    · rw [if_neg hp]
      by_cases hpr : pr > 0
      · rw [if_pos hpr, Stak.GetParent_setBranchPRNumber]
        exact h
      · rw [if_neg hpr]
        exact h
  · intro h
    unfold Stak.WriteBranchMetadata
    by_cases hp : p ≠ ""
    · rw [if_pos hp]
      by_cases hpr : pr > 0
      · rw [if_pos hpr, Stak.getPRNumber_setBranchPRNumber_self]
        exact hpr
      · rw [if_neg hpr, Stak.getPRNumber_setBranchParent]
        exact h
    · rw [if_neg hp]
      by_cases hpr : pr > 0
      · rw [if_pos hpr, Stak.getPRNumber_setBranchPRNumber_self]
        exact hpr
      · rw [if_neg hpr]
        exact h

namespace Stak

/-- A world with a single tracked branch B, frozen, stacked on the untracked
base main. -/
def frozenWorld : World :=
  World.mk [("B", ⟨"main", 0, "true"⟩)] "B" (fun _ => true) (fun _ => true)
    (fun _ => Option.none) (fun _ _ => RebaseResult.ok)

/-- A world with two branches on main where rebasing A conflicts. -/
def conflictWorld : World :=
  World.mk [("A", ⟨"main", 0, ""⟩), ("Bb", ⟨"main", 0, ""⟩)] "A"
    (fun _ => true) (fun _ => true) (fun _ => Option.none)
    (fun b _ => if b = "A" then RebaseResult.conflict ["file.txt"] else RebaseResult.ok)

/-- The spec's merge scenario: main -> A(#1) -> Bb(#2), both requests open,
approved and passing, run from Bb with the whole-chain flag. -/
def baseRootedWorld : World :=
  World.mk [("A", ⟨"main", 1, ""⟩), ("Bb", ⟨"A", 2, ""⟩)] "Bb"
    (fun _ => true) (fun _ => true)
    (fun n => if n = 1 ∨ n = 2 then some (PRStatus.mk "OPEN" "APPROVED" []) else Option.none)
    (fun _ _ => RebaseResult.ok)

end Stak

/-- C1 fails on the code: the engines never consult `IsBranchFrozen`
(`stack.IsBranchFrozen` is called only by the freeze/unfreeze commands), so
a frozen branch is rebased and force-pushed by `runSync` like any other.
Here the only tracked branch B is frozen, yet the sync trace rebases B onto
origin/main and force-pushes it, exiting successfully. -/
theorem claim_C1_sync_rebases_frozen_branch :
    Stak.IsBranchFrozen Stak.frozenWorld.store "B" = true ∧
    Stak.Eff.rebase "B" "origin/main" ∈ (Stak.runSync Stak.frozenWorld).2.1 ∧
    Stak.Eff.push "B" false true ∈ (Stak.runSync Stak.frozenWorld).2.1 ∧
    (Stak.runSync Stak.frozenWorld).2.2 = Except.ok () := by
  refine ⟨by decide, by decide, by decide, rfl⟩

/-- C2 fails on the code: `runSync`'s relaxation loop only warns when
`syncBranch` returns the rebase-conflict error, marks the branch processed
and keeps going.  With a conflict on A, the later plan step Bb is still
rebased and force-pushed (strictly after the conflicting rebase in the
trace), A itself is never pushed, and the invocation returns success
rather than a non-zero result. -/
theorem claim_C2_sync_continues_after_conflict :
    (Stak.runSync Stak.conflictWorld).2.2 = Except.ok () ∧
    Stak.Eff.rebase "A" "origin/main" ∈ (Stak.runSync Stak.conflictWorld).2.1 ∧
    Stak.Eff.push "A" false true ∉ (Stak.runSync Stak.conflictWorld).2.1 ∧
    Stak.Eff.push "Bb" false true ∈ (Stak.runSync Stak.conflictWorld).2.1 ∧
    (Stak.runSync Stak.conflictWorld).2.1.indexOf (Stak.Eff.rebase "A" "origin/main") <
      (Stak.runSync Stak.conflictWorld).2.1.indexOf (Stak.Eff.push "Bb" false true) := by
  refine ⟨rfl, by decide, by decide, by decide, by decide⟩

/-- C5 fails on the code: `GetAncestors` prepends every stored parent name,
including the untracked base, so under the whole-chain flag the chain for
the spec's own scenario (main -> A(#1) -> Bb(#2), both approved and
passing) is [main, A, Bb]; `mergeBranch main` then fails immediately
("branch main has no associated PR") and nothing at all is landed. -/
theorem claim_C5_merge_all_fails_on_base_rooted_stack :
    (Stak.runMerge (Stak.MergeFlags.mk true "squash" false) 5 Stak.baseRootedWorld).map
        (fun r => (r.2.1, r.2.2)) =
      some ([Stak.Eff.fetch], Except.error "branch main has no associated PR") := rfl

namespace Stak

theorem lookupMeta_delete_other (s : MetaStore) (b x : String) (hx : x ≠ b) :
    lookupMeta (DeleteBranchMetadata s b) x = lookupMeta s x := by
  induction s with
  | nil => rfl
  | cons e rest ih =>
    show lookupMeta (List.filter _ (e :: rest)) x = _
    rw [List.filter_cons]
    by_cases he : e.1 = b
    · have hdec : (decide (e.1 ≠ b)) = false := by simp [he]
      rw [hdec, if_neg (by simp)]
      have hxe : ¬ x = e.1 := by rw [he]; exact hx
      show lookupMeta (DeleteBranchMetadata rest b) x = _
      rw [ih]
      show _ = if x = e.1 then e.2 else lookupMeta rest x
      rw [if_neg hxe]
    · have hdec : (decide (e.1 ≠ b)) = true := by simp [he]
      rw [hdec, if_pos rfl]
      show (if x = e.1 then e.2 else lookupMeta (DeleteBranchMetadata rest b) x) = _
      by_cases hxe : x = e.1
      · rw [if_pos hxe]
        show _ = if x = e.1 then e.2 else lookupMeta rest x
        rw [if_pos hxe]
      · rw [if_neg hxe, ih]
        show _ = if x = e.1 then e.2 else lookupMeta rest x
        rw [if_neg hxe]

theorem hasKey_delete_self (s : MetaStore) (b : String) :
    hasKey (DeleteBranchMetadata s b) b = false := by
  induction s with
  | nil => rfl
  | cons e rest ih =>
    show hasKey (List.filter _ (e :: rest)) b = false
    rw [List.filter_cons]
    by_cases he : e.1 = b
    · have hdec : (decide (e.1 ≠ b)) = false := by simp [he]
      rw [hdec, if_neg (by simp)]
      exact ih
    · have hdec : (decide (e.1 ≠ b)) = true := by simp [he]
      rw [hdec, if_pos rfl]
      show (if b = e.1 then true else hasKey (DeleteBranchMetadata rest b) b) = false
      rw [if_neg (fun h => he h.symm)]
      exact ih

theorem lookupMeta_write_other (s : MetaStore) (c : String) (pb : String) (n : Int)
    (x : String) (hx : x ≠ c) :
    lookupMeta (WriteBranchMetadata s c pb n) x = lookupMeta s x := by
  unfold WriteBranchMetadata
  by_cases hp : pb ≠ ""
  · rw [if_pos hp]
    by_cases hn : n > 0
    · rw [if_pos hn]
      unfold setBranchPRNumber setBranchParent
      rw [lookupMeta_setMeta_other _ _ _ _ hx, lookupMeta_setMeta_other _ _ _ _ hx]
    · rw [if_neg hn]
      unfold setBranchParent
      rw [lookupMeta_setMeta_other _ _ _ _ hx]
  · rw [if_neg hp]
    by_cases hn : n > 0
    · rw [if_pos hn]
      unfold setBranchPRNumber
      rw [lookupMeta_setMeta_other _ _ _ _ hx]
    · rw [if_neg hn]

theorem lookupMeta_write_self (s : MetaStore) (c : String) (pb : String) (n : Int) :
    lookupMeta (WriteBranchMetadata s c pb n) c =
      ⟨if pb ≠ "" then pb else (lookupMeta s c).parent,
       if n > 0 then n else (lookupMeta s c).prNumber,
       (lookupMeta s c).frozen⟩ := by
  unfold WriteBranchMetadata
  by_cases hp : pb ≠ ""
  · rw [if_pos hp]
    by_cases hn : n > 0
    · rw [if_pos hn, if_pos hp, if_pos hn]
      unfold setBranchPRNumber setBranchParent
      rw [lookupMeta_setMeta_self, lookupMeta_setMeta_self]
    · rw [if_neg hn, if_pos hp, if_neg hn]
      unfold setBranchParent
      rw [lookupMeta_setMeta_self]
  · rw [if_neg hp]
    by_cases hn : n > 0
    · rw [if_pos hn, if_neg hp, if_pos hn]
      unfold setBranchPRNumber
      rw [lookupMeta_setMeta_self]
    · rw [if_neg hn, if_neg hp, if_neg hn]

theorem cleanupChildUpdate_store (w : World) (pb c : String) :
    (cleanupChildUpdate w pb c).1.store =
      WriteBranchMetadata w.store c pb (lookupMeta w.store c).prNumber := rfl

theorem cleanupChildren_cons (pb : String) (w : World) (c : String) (rest : List String) :
    cleanupChildren pb w (c :: rest) =
      ((cleanupChildren pb (cleanupChildUpdate w pb c).1 rest).1,
       (cleanupChildUpdate w pb c).2 ++
         (cleanupChildren pb (cleanupChildUpdate w pb c).1 rest).2) := rfl

theorem cleanupChildUpdate_effs (w : World) (pb c : String) :
    (cleanupChildUpdate w pb c).2 =
      (writeBranchMetadataW w c pb (lookupMeta w.store c).prNumber).2 ++
        (if (lookupMeta w.store c).prNumber > 0
          then [Eff.updatePRBase (lookupMeta w.store c).prNumber pb] else []) := rfl

theorem cleanupChildren_lookup_notMem (pb : String) :
    ∀ (l : List String) (w : World) (x : String), x ∉ l →
      lookupMeta (cleanupChildren pb w l).1.store x = lookupMeta w.store x := by
  intro l
  induction l with
  | nil => intro w x _; rfl
  | cons c rest ih =>
    intro w x hx
    have hxc : x ≠ c := fun h => hx (h ▸ List.mem_cons_self c rest)
    have hxr : x ∉ rest := fun h => hx (List.mem_cons_of_mem c h)
    rw [cleanupChildren_cons]
    show lookupMeta (cleanupChildren pb (cleanupChildUpdate w pb c).1 rest).1.store x = _
    rw [ih _ x hxr, cleanupChildUpdate_store, lookupMeta_write_other _ _ _ _ _ hxc]

theorem cleanupChildren_lookup_mem (pb : String) :
    ∀ (l : List String), l.Nodup → ∀ (w : World) (c : String), c ∈ l →
      lookupMeta (cleanupChildren pb w l).1.store c =
        lookupMeta (WriteBranchMetadata w.store c pb (lookupMeta w.store c).prNumber) c := by
  intro l
  induction l with
  | nil => intro _ w c hc; cases hc
  | cons h rest ih =>
    intro hnd w c hc
    rcases List.mem_cons.mp hc with rfl | hcr
    · have hnr : c ∉ rest := (List.nodup_cons.mp hnd).1
      rw [cleanupChildren_cons]
      show lookupMeta (cleanupChildren pb (cleanupChildUpdate w pb c).1 rest).1.store c = _
      rw [cleanupChildren_lookup_notMem pb rest _ c hnr, cleanupChildUpdate_store]
    · have hch : c ≠ h := by
        intro heq
        rw [heq] at hcr
        exact (List.nodup_cons.mp hnd).1 hcr
      rw [cleanupChildren_cons]
      show lookupMeta (cleanupChildren pb (cleanupChildUpdate w pb h).1 rest).1.store c = _
      rw [ih (List.nodup_cons.mp hnd).2 _ c hcr, cleanupChildUpdate_store]
      have hpre : lookupMeta (WriteBranchMetadata w.store h pb (lookupMeta w.store h).prNumber) c
          = lookupMeta w.store c := lookupMeta_write_other _ _ _ _ _ hch
      rw [lookupMeta_write_self, lookupMeta_write_self, hpre]

theorem cleanupChildren_updatePRBase_mem (pb : String) :
    ∀ (l : List String), l.Nodup → ∀ (w : World) (c : String), c ∈ l →
      0 < (lookupMeta w.store c).prNumber →
      Eff.updatePRBase (lookupMeta w.store c).prNumber pb ∈ (cleanupChildren pb w l).2 := by
  intro l
  induction l with
  | nil => intro _ w c hc; cases hc
  | cons h rest ih =>
    intro hnd w c hc hpr
    rw [cleanupChildren_cons]
    rcases List.mem_cons.mp hc with rfl | hcr
    · apply List.mem_append_left
      rw [cleanupChildUpdate_effs]
      apply List.mem_append_right
      rw [if_pos hpr]
      exact List.mem_singleton.mpr rfl
    · have hch : c ≠ h := by
        intro heq
        rw [heq] at hcr
        exact (List.nodup_cons.mp hnd).1 hcr
      apply List.mem_append_right
      have hpre : lookupMeta (cleanupChildUpdate w pb h).1.store c = lookupMeta w.store c := by
        rw [cleanupChildUpdate_store, lookupMeta_write_other _ _ _ _ _ hch]
      have hmem := ih (List.nodup_cons.mp hnd).2 (cleanupChildUpdate w pb h).1 c hcr
        (by rw [hpre]; exact hpr)
      rw [hpre] at hmem
      exact hmem

end Stak

namespace Stak

/-- Reduction of `checkAndCleanupMergedBranch` when the branch has a PR whose
fetched status is merged. -/
theorem checkAndCleanupMergedBranch_merged (w : World) (branch : String) (st : PRStatus)
    (hpr : (lookupMeta w.store branch).prNumber ≠ 0)
    (hst : w.prState (lookupMeta w.store branch).prNumber = some st)
    (hm : st.IsMerged = true) :
    checkAndCleanupMergedBranch w branch =
      (let parentBranch := (lookupMeta w.store branch).parent
       let step1 := cleanupChildren parentBranch w (GetChildren w.store branch)
       let step2 := if step1.1.current = branch ∧ parentBranch ≠ "" then
           ({ step1.1 with current := parentBranch }, [Eff.checkout parentBranch])
         else (step1.1, ([] : List Eff))
       let w3 := { step2.1 with
         localB := fun x => if x = branch then false else step2.1.localB x,
         store := DeleteBranchMetadata step2.1.store branch }
       (w3, step1.2 ++ step2.2 ++ [Eff.deleteBranch branch, Eff.deleteMeta branch], true)) := by
  unfold checkAndCleanupMergedBranch
  rw [if_neg hpr, hst]
  show (if st.IsMerged then _ else _) = _
  rw [if_pos hm]

/-- Effect-shape predicates used to place effects in the phases of a run. -/
def isRebaseEff : Eff → Bool
  | Eff.rebase _ _ => true
  | _ => false

def isDeleteMetaEff : Eff → Bool
  | Eff.deleteMeta _ => true
  | _ => false

theorem updateLocalFromRemote_effs_shape (w : World) (b : String) :
    ∀ e ∈ (updateLocalFromRemote w b).2,
      isRebaseEff e = false ∧ isDeleteMetaEff e = false := by
  intro e he
  unfold updateLocalFromRemote at he
  split at he
  · simp only [List.mem_cons, List.not_mem_nil, or_false] at he
    rcases he with rfl | rfl | rfl <;> exact ⟨rfl, rfl⟩
  · cases he

theorem writeBranchMetadataW_effs_shape (w : World) (b p : String) (pr : Int) :
    ∀ e ∈ (writeBranchMetadataW w b p pr).2,
      isRebaseEff e = false ∧ isDeleteMetaEff e = false := by
  intro e he
  unfold writeBranchMetadataW at he
  simp only [List.mem_append] at he
  rcases he with he | he
  · split at he
    · simp only [List.mem_singleton] at he
      subst he
      exact ⟨rfl, rfl⟩
    · cases he
  · split at he
    · simp only [List.mem_singleton] at he
      subst he
      exact ⟨rfl, rfl⟩
    · cases he

theorem cleanupChildUpdate_effs_shape (w : World) (pb c : String) :
    ∀ e ∈ (cleanupChildUpdate w pb c).2,
      isRebaseEff e = false ∧ isDeleteMetaEff e = false := by
  intro e he
  rw [cleanupChildUpdate_effs] at he
  rcases List.mem_append.mp he with he | he
  · exact writeBranchMetadataW_effs_shape _ _ _ _ e he
  · split at he
    · simp only [List.mem_cons, List.not_mem_nil, or_false] at he
      rcases he with rfl
      exact ⟨rfl, rfl⟩
    · cases he

theorem cleanupChildren_effs_shape (pb : String) :
    ∀ (l : List String) (w : World), ∀ e ∈ (cleanupChildren pb w l).2,
      isRebaseEff e = false ∧ isDeleteMetaEff e = false := by
  intro l
  induction l with
  | nil => intro w e he; cases he
  | cons c rest ih =>
    intro w e he
    rw [cleanupChildren_cons] at he
    rcases List.mem_append.mp he with he | he
    · exact cleanupChildUpdate_effs_shape _ _ _ e he
    · exact ih _ e he

theorem checkAndCleanup_skip_prZero (w : World) (b : String)
    (hpr : (lookupMeta w.store b).prNumber = 0) :
    checkAndCleanupMergedBranch w b = (w, [], false) := by
  unfold checkAndCleanupMergedBranch
  rw [if_pos hpr]

theorem checkAndCleanup_skip_none (w : World) (b : String)
    (hpr : (lookupMeta w.store b).prNumber ≠ 0)
    (hst : w.prState (lookupMeta w.store b).prNumber = Option.none) :
    checkAndCleanupMergedBranch w b = (w, [], false) := by
  unfold checkAndCleanupMergedBranch
  rw [if_neg hpr, hst]

theorem checkAndCleanup_skip_not_merged (w : World) (b : String) (st : PRStatus)
    (hpr : (lookupMeta w.store b).prNumber ≠ 0)
    (hst : w.prState (lookupMeta w.store b).prNumber = some st)
    (hm : st.IsMerged = false) :
    checkAndCleanupMergedBranch w b = (w, [], false) := by
  unfold checkAndCleanupMergedBranch
  rw [if_neg hpr, hst]
  show (if st.IsMerged then _ else _) = _
  rw [hm]
  simp

theorem checkAndCleanup_effs_merged (w : World) (b : String) (st : PRStatus)
    (hpr : (lookupMeta w.store b).prNumber ≠ 0)
    (hst : w.prState (lookupMeta w.store b).prNumber = some st)
    (hm : st.IsMerged = true) :
    (checkAndCleanupMergedBranch w b).2.1 =
      (cleanupChildren (lookupMeta w.store b).parent w (GetChildren w.store b)).2 ++
        ((if (cleanupChildren (lookupMeta w.store b).parent w
              (GetChildren w.store b)).1.current = b ∧ (lookupMeta w.store b).parent ≠ ""
          then [Eff.checkout (lookupMeta w.store b).parent] else []) ++
          [Eff.deleteBranch b, Eff.deleteMeta b]) := by
  rw [checkAndCleanupMergedBranch_merged w b st hpr hst hm]
  by_cases hc : (cleanupChildren (lookupMeta w.store b).parent w
      (GetChildren w.store b)).1.current = b ∧ (lookupMeta w.store b).parent ≠ ""
  · simp only [if_pos hc, List.append_assoc]
  · simp only [if_neg hc, List.append_assoc]

theorem checkAndCleanup_store_merged (w : World) (b : String) (st : PRStatus)
    (hpr : (lookupMeta w.store b).prNumber ≠ 0)
    (hst : w.prState (lookupMeta w.store b).prNumber = some st)
    (hm : st.IsMerged = true) :
    (checkAndCleanupMergedBranch w b).1.store =
      DeleteBranchMetadata
        (cleanupChildren (lookupMeta w.store b).parent w (GetChildren w.store b)).1.store b := by
  rw [checkAndCleanupMergedBranch_merged w b st hpr hst hm]
  by_cases hc : (cleanupChildren (lookupMeta w.store b).parent w
      (GetChildren w.store b)).1.current = b ∧ (lookupMeta w.store b).parent ≠ ""
  · simp only [if_pos hc]
  · simp only [if_neg hc]

theorem checkAndCleanup_ran_merged (w : World) (b : String) (st : PRStatus)
    (hpr : (lookupMeta w.store b).prNumber ≠ 0)
    (hst : w.prState (lookupMeta w.store b).prNumber = some st)
    (hm : st.IsMerged = true) :
    (checkAndCleanupMergedBranch w b).2.2 = true := by
  rw [checkAndCleanupMergedBranch_merged w b st hpr hst hm]

theorem checkAndCleanup_localB_merged (w : World) (b : String) (st : PRStatus)
    (hpr : (lookupMeta w.store b).prNumber ≠ 0)
    (hst : w.prState (lookupMeta w.store b).prNumber = some st)
    (hm : st.IsMerged = true) :
    (checkAndCleanupMergedBranch w b).1.localB b = false := by
  rw [checkAndCleanupMergedBranch_merged w b st hpr hst hm]
  by_cases hc : (cleanupChildren (lookupMeta w.store b).parent w
      (GetChildren w.store b)).1.current = b ∧ (lookupMeta w.store b).parent ≠ ""
  · simp only [if_pos hc]
    simp
  · simp only [if_neg hc]
    simp

theorem checkAndCleanupMergedBranch_effs_noRebase (w : World) (b : String) :
    ∀ e ∈ (checkAndCleanupMergedBranch w b).2.1, isRebaseEff e = false := by
  by_cases hpr : (lookupMeta w.store b).prNumber = 0
  · intro e he
    rw [checkAndCleanup_skip_prZero w b hpr] at he
    cases he
  · cases hst : w.prState (lookupMeta w.store b).prNumber with
    | none =>
      intro e he
      rw [checkAndCleanup_skip_none w b hpr hst] at he
      cases he
    | some st =>
      cases hm : st.IsMerged with
      | false =>
        intro e he
        rw [checkAndCleanup_skip_not_merged w b st hpr hst hm] at he
        cases he
      | true =>
        intro e he
        rw [checkAndCleanup_effs_merged w b st hpr hst hm] at he
        rcases List.mem_append.mp he with he | he
        · exact (cleanupChildren_effs_shape _ _ _ e he).1
        · rcases List.mem_append.mp he with he | he
          · split at he
            · simp only [List.mem_singleton] at he
              subst he
              rfl
            · cases he
          · simp only [List.mem_cons, List.not_mem_nil, or_false] at he
            rcases he with rfl | rfl <;> rfl

theorem updateBasesRun_cons (w : World) (p : String) (rest : List String) :
    updateBasesRun w (p :: rest) =
      ((updateBasesRun (updateLocalFromRemote w p).1 rest).1,
       (updateLocalFromRemote w p).2 ++
         (updateBasesRun (updateLocalFromRemote w p).1 rest).2) := rfl

theorem updateBasesRun_effs_shape :
    ∀ (l : List String) (w : World), ∀ e ∈ (updateBasesRun w l).2,
      isRebaseEff e = false ∧ isDeleteMetaEff e = false := by
  intro l
  induction l with
  | nil => intro w e he; cases he
  | cons p rest ih =>
    intro w e he
    rw [updateBasesRun_cons] at he
    rcases List.mem_append.mp he with he | he
    · exact updateLocalFromRemote_effs_shape _ _ e he
    · exact ih _ e he

theorem updateBasesRun_effs_shape_noRebase (l : List String) (w : World) :
    ∀ e ∈ (updateBasesRun w l).2, isRebaseEff e = false :=
  fun e he => (updateBasesRun_effs_shape l w e he).1

theorem cleanupRun_effs_noRebase :
    ∀ (l : List String) (w : World), ∀ e ∈ (cleanupRun w l).2, isRebaseEff e = false := by
  intro l
  induction l with
  | nil => intro w e he; cases he
  | cons b rest ih =>
    intro w e he
    unfold cleanupRun at he
    split at he
    · rcases List.mem_append.mp he with he | he
      · exact checkAndCleanupMergedBranch_effs_noRebase _ _ e he
      · exact ih _ e he
    · exact ih _ e he

theorem syncBranch_effs_noDeleteMeta (w : World) (b : String) :
    ∀ e ∈ (syncBranch w b).2.1, isDeleteMetaEff e = false := by
  intro e he
  unfold syncBranch at he
  simp only [] at he
  split at he
  · cases he
  · split at he
    · simp only [List.mem_append, List.mem_cons, List.not_mem_nil, or_false] at he
      rcases he with (he | rfl | rfl) | rfl
      · exact (updateLocalFromRemote_effs_shape _ _ e he).2
      all_goals rfl
    · simp only [List.mem_append, List.mem_cons, List.not_mem_nil, or_false] at he
      rcases he with he | rfl | rfl
      · exact (updateLocalFromRemote_effs_shape _ _ e he).2
      all_goals rfl
    · simp only [List.mem_append, List.mem_cons, List.not_mem_nil, or_false] at he
      rcases he with he | rfl | rfl
      · exact (updateLocalFromRemote_effs_shape _ _ e he).2
      all_goals rfl

theorem syncPassGo_effs_noDeleteMeta (all : List String) :
    ∀ (l : List String) (w : World) (marks : List (String × SyncOutcome)) (progress : Bool),
      ∀ e ∈ (syncPassGo all l w marks progress).2.1, isDeleteMetaEff e = false := by
  intro l
  induction l with
  | nil => intro w marks progress e he; cases he
  | cons b rest ih =>
    intro w marks progress e he
    unfold syncPassGo at he
    simp only [] at he
    split at he
    · exact ih _ _ _ e he
    · split at he
      · exact ih _ _ _ e he
      · split at he
        · simp only [List.mem_append] at he
          rcases he with he | he
          · exact syncBranch_effs_noDeleteMeta _ _ e he
          · exact ih _ _ _ e he
        · exact ih _ _ _ e he

theorem syncLoop_effs_noDeleteMeta (all : List String) :
    ∀ (n : Nat) (w : World) (marks : List (String × SyncOutcome)),
      ∀ e ∈ (syncLoop all n w marks).2.1, isDeleteMetaEff e = false := by
  intro n
  induction n with
  | zero => intro w marks e he; cases he
  | succ n ih =>
    intro w marks e he
    unfold syncLoop at he
    simp only [] at he
    split at he
    · split at he
      · simp only [List.mem_append] at he
        rcases he with he | he
        · exact syncPassGo_effs_noDeleteMeta _ _ _ _ _ e he
        · exact ih _ _ e he
      · exact syncPassGo_effs_noDeleteMeta _ _ _ _ _ e he
    · cases he

/-- In a full `runSync` trace the reconciliation pass precedes every rebase:
the trace splits into a rebase-free prefix (fetch, base updates, merged
cleanup) holding all metadata deletions, and a suffix (the relaxation loop
and final checkout) that deletes no metadata. -/
theorem trace_split_helper (A B C D E : List Eff)
    (hA : ∀ e ∈ A, isRebaseEff e = false)
    (hB : ∀ e ∈ B, isRebaseEff e = false)
    (hC : ∀ e ∈ C, isRebaseEff e = false)
    (hD : ∀ e ∈ D, isDeleteMetaEff e = false)
    (hE : ∀ e ∈ E, isDeleteMetaEff e = false) :
    ∃ t1 t2, A ++ B ++ C ++ D ++ E = t1 ++ t2 ∧
      (∀ e ∈ t1, isRebaseEff e = false) ∧ (∀ e ∈ t2, isDeleteMetaEff e = false) := by
  refine ⟨A ++ B ++ C, D ++ E, by simp [List.append_assoc], ?_, ?_⟩
  · intro e he
    rcases List.mem_append.mp he with he | he
    · rcases List.mem_append.mp he with he | he
      · exact hA e he
      · exact hB e he
    · exact hC e he
  · intro e he
    rcases List.mem_append.mp he with he | he
    · exact hD e he
    · exact hE e he

theorem fetch_only_noRebase : ∀ e ∈ [Eff.fetch], isRebaseEff e = false := by
  intro e he
  simp only [List.mem_singleton] at he
  subst he
  rfl

theorem checkout_only_noDeleteMeta (b : String) :
    ∀ e ∈ [Eff.checkout b], isDeleteMetaEff e = false := by
  intro e he
  simp only [List.mem_singleton] at he
  subst he
  rfl

/-- In a full `runSync` trace the reconciliation pass precedes every rebase:
the trace splits into a rebase-free prefix (fetch, base updates, merged
cleanup) holding all metadata deletions, and a suffix (the relaxation loop
and final checkout) that deletes no metadata. -/
theorem runSync_cleanup_before_rebase (w : World) :
    ∃ t1 t2, (runSync w).2.1 = t1 ++ t2 ∧
      (∀ e ∈ t1, isRebaseEff e = false) ∧
      (∀ e ∈ t2, isDeleteMetaEff e = false) := by
  unfold runSync
  simp only []
  split
  · refine ⟨[Eff.fetch], [], by simp, fetch_only_noRebase, ?_⟩
    intro e he
    cases he
  · exact trace_split_helper _ _ _ _ _ fetch_only_noRebase
      (updateBasesRun_effs_shape_noRebase _ _)
      (cleanupRun_effs_noRebase _ _)
      (syncLoop_effs_noDeleteMeta _ _ _ _)
      (checkout_only_noDeleteMeta _)

end Stak

namespace Stak

theorem GetChildren_nodup (s : MetaStore) (b : String)
    (hnd : (allStackBranches s).Nodup) : (GetChildren s b).Nodup := by
  unfold GetChildren
  split
  · have hsub : List.Sublist ((s.filter (fun e => decide (e.2.parent = b))).map Prod.fst)
        (s.map Prod.fst) :=
      List.Sublist.map Prod.fst (List.filter_sublist s)
    exact hsub.nodup hnd
  · exact List.nodup_nil

/-- A world whose tracked root A (stored parent absent) has a landed PR and
one child Bb. -/
def mergedRootWorld : World :=
  World.mk [("A", ⟨"", 1, ""⟩), ("Bb", ⟨"A", 2, ""⟩)] "main"
    (fun _ => true) (fun _ => true)
    (fun n => if n = 1 then some (PRStatus.mk "MERGED" "" []) else Option.none)
    (fun _ _ => RebaseResult.ok)

/-- As `mergedRootWorld` but the landed branch A sits on the base main. -/
def mergedMidWorld : World :=
  World.mk [("A", ⟨"main", 1, ""⟩), ("Bb", ⟨"A", 2, ""⟩)] "main"
    (fun _ => true) (fun _ => true)
    (fun n => if n = 1 then some (PRStatus.mk "MERGED" "" []) else Option.none)
    (fun _ _ => RebaseResult.ok)

end Stak

/-- Counterexample to C4: when the landed branch is a root (stored parent
absent), `WriteBranchMetadata child "" pr` is a silent no-op on the parent
field, so the child is NOT re-pointed: after the cleanup of the landed root
A, its child Bb still has stored parent "A" (which has just been deleted),
and the code even asks the host to re-base Bb's PR onto the empty string. -/
theorem claim_C4_counterexample_root_child_not_repointed :
    Stak.GetParent Stak.mergedRootWorld.store "A" = "" ∧
    (Stak.checkAndCleanupMergedBranch Stak.mergedRootWorld "A").2.2 = true ∧
    Stak.GetParent (Stak.checkAndCleanupMergedBranch Stak.mergedRootWorld "A").1.store "Bb"
      = "A" ∧
    Stak.hasKey (Stak.checkAndCleanupMergedBranch Stak.mergedRootWorld "A").1.store "A"
      = false ∧
    Stak.Eff.updatePRBase 2 "" ∈ (Stak.checkAndCleanupMergedBranch Stak.mergedRootWorld "A").2.1 := by
  refine ⟨by decide, by decide, by decide, by decide, by decide⟩

/-- C4 as amended: the reconciliation of a landed branch re-points every
direct child and updates its PR base when the landed branch has a parent of
its own; when the landed branch is a root the children's stored parents are
left unchanged (still naming the deleted branch).  In both cases the landed
branch's local copy and metadata entry are removed, and within a full
`runSync` the reconciliation runs before any rebase. -/
theorem claim_C4_merged_cleanup_amended (w : Stak.World) (branch : String) (st : Stak.PRStatus)
    (hnd : (Stak.allStackBranches w.store).Nodup)
    (hself : branch ∉ Stak.GetChildren w.store branch)
    (hpr : (Stak.lookupMeta w.store branch).prNumber ≠ 0)
    (hst : w.prState (Stak.lookupMeta w.store branch).prNumber = some st)
    (hm : st.IsMerged = true) :
    (Stak.checkAndCleanupMergedBranch w branch).2.2 = true ∧
    (∀ c ∈ Stak.GetChildren w.store branch,
      (Stak.lookupMeta w.store branch).parent ≠ "" →
        Stak.GetParent (Stak.checkAndCleanupMergedBranch w branch).1.store c =
          (Stak.lookupMeta w.store branch).parent) ∧
    (∀ c ∈ Stak.GetChildren w.store branch,
      (Stak.lookupMeta w.store branch).parent = "" →
        Stak.GetParent (Stak.checkAndCleanupMergedBranch w branch).1.store c =
          Stak.GetParent w.store c) ∧
    (∀ c ∈ Stak.GetChildren w.store branch, 0 < (Stak.lookupMeta w.store c).prNumber →
      Stak.Eff.updatePRBase (Stak.lookupMeta w.store c).prNumber
          (Stak.lookupMeta w.store branch).parent ∈
        (Stak.checkAndCleanupMergedBranch w branch).2.1) ∧
    Stak.Eff.deleteBranch branch ∈ (Stak.checkAndCleanupMergedBranch w branch).2.1 ∧
    Stak.Eff.deleteMeta branch ∈ (Stak.checkAndCleanupMergedBranch w branch).2.1 ∧
    Stak.hasKey (Stak.checkAndCleanupMergedBranch w branch).1.store branch = false ∧
    (Stak.checkAndCleanupMergedBranch w branch).1.localB branch = false ∧
    (∀ wany, ∃ t1 t2, (Stak.runSync wany).2.1 = t1 ++ t2 ∧
      (∀ e ∈ t1, Stak.isRebaseEff e = false) ∧
      (∀ e ∈ t2, Stak.isDeleteMetaEff e = false)) := by
  have hcnd : (Stak.GetChildren w.store branch).Nodup := Stak.GetChildren_nodup _ _ hnd
  refine ⟨Stak.checkAndCleanup_ran_merged w branch st hpr hst hm, ?_, ?_, ?_, ?_, ?_, ?_,
    Stak.checkAndCleanup_localB_merged w branch st hpr hst hm,
    fun wany => Stak.runSync_cleanup_before_rebase wany⟩
  · intro c hc hroot
    have hcb : c ≠ branch := fun h => hself (h ▸ hc)
    unfold Stak.GetParent
    rw [Stak.checkAndCleanup_store_merged w branch st hpr hst hm,
      Stak.lookupMeta_delete_other _ _ _ hcb,
      Stak.cleanupChildren_lookup_mem _ _ hcnd _ _ hc,
      Stak.lookupMeta_write_self]
    simp only [if_pos hroot]
  · intro c hc hroot
    have hcb : c ≠ branch := fun h => hself (h ▸ hc)
    unfold Stak.GetParent
    rw [Stak.checkAndCleanup_store_merged w branch st hpr hst hm,
      Stak.lookupMeta_delete_other _ _ _ hcb,
      Stak.cleanupChildren_lookup_mem _ _ hcnd _ _ hc,
      Stak.lookupMeta_write_self]
    rw [hroot]
    simp
  · intro c hc hcpr
    rw [Stak.checkAndCleanup_effs_merged w branch st hpr hst hm]
    exact List.mem_append_left _
      (Stak.cleanupChildren_updatePRBase_mem _ _ hcnd _ _ hc hcpr)
  · rw [Stak.checkAndCleanup_effs_merged w branch st hpr hst hm]
    apply List.mem_append_right
    apply List.mem_append_right
    exact List.mem_cons_self _ _
  · rw [Stak.checkAndCleanup_effs_merged w branch st hpr hst hm]
    apply List.mem_append_right
    apply List.mem_append_right
    exact List.mem_cons_of_mem _ (List.mem_singleton.mpr rfl)
  · rw [Stak.checkAndCleanup_store_merged w branch st hpr hst hm]
    exact Stak.hasKey_delete_self _ _

/-- Witness for the amended C4 at a landed mid-stack branch. -/
theorem claim_C4_merged_cleanup_amended_witness :
    (Stak.allStackBranches Stak.mergedMidWorld.store).Nodup ∧
    "A" ∉ Stak.GetChildren Stak.mergedMidWorld.store "A" ∧
    (Stak.lookupMeta Stak.mergedMidWorld.store "A").prNumber ≠ 0 ∧
    Stak.mergedMidWorld.prState (Stak.lookupMeta Stak.mergedMidWorld.store "A").prNumber =
      some (Stak.PRStatus.mk "MERGED" "" []) ∧
    (Stak.PRStatus.mk "MERGED" "" []).IsMerged = true ∧
    ((Stak.checkAndCleanupMergedBranch Stak.mergedMidWorld "A").2.2 = true ∧
     (∀ c ∈ Stak.GetChildren Stak.mergedMidWorld.store "A",
       (Stak.lookupMeta Stak.mergedMidWorld.store "A").parent ≠ "" →
         Stak.GetParent (Stak.checkAndCleanupMergedBranch Stak.mergedMidWorld "A").1.store c =
           (Stak.lookupMeta Stak.mergedMidWorld.store "A").parent) ∧
     (∀ c ∈ Stak.GetChildren Stak.mergedMidWorld.store "A",
       (Stak.lookupMeta Stak.mergedMidWorld.store "A").parent = "" →
         Stak.GetParent (Stak.checkAndCleanupMergedBranch Stak.mergedMidWorld "A").1.store c =
           Stak.GetParent Stak.mergedMidWorld.store c) ∧
     (∀ c ∈ Stak.GetChildren Stak.mergedMidWorld.store "A",
       0 < (Stak.lookupMeta Stak.mergedMidWorld.store c).prNumber →
       Stak.Eff.updatePRBase (Stak.lookupMeta Stak.mergedMidWorld.store c).prNumber
           (Stak.lookupMeta Stak.mergedMidWorld.store "A").parent ∈
         (Stak.checkAndCleanupMergedBranch Stak.mergedMidWorld "A").2.1) ∧
     Stak.Eff.deleteBranch "A" ∈ (Stak.checkAndCleanupMergedBranch Stak.mergedMidWorld "A").2.1 ∧
     Stak.Eff.deleteMeta "A" ∈ (Stak.checkAndCleanupMergedBranch Stak.mergedMidWorld "A").2.1 ∧
     Stak.hasKey (Stak.checkAndCleanupMergedBranch Stak.mergedMidWorld "A").1.store "A" = false ∧
     (Stak.checkAndCleanupMergedBranch Stak.mergedMidWorld "A").1.localB "A" = false ∧
     (∀ wany, ∃ t1 t2, (Stak.runSync wany).2.1 = t1 ++ t2 ∧
       (∀ e ∈ t1, Stak.isRebaseEff e = false) ∧
       (∀ e ∈ t2, Stak.isDeleteMetaEff e = false))) :=
  ⟨by decide, by decide, by decide, by decide, by decide,
   claim_C4_merged_cleanup_amended Stak.mergedMidWorld "A" (Stak.PRStatus.mk "MERGED" "" [])
     (by decide) (by decide) (by decide) (by decide) (by decide)⟩

namespace Stak

theorem updateLocalFromRemote_world (w : World) (b : String) :
    (updateLocalFromRemote w b).1 = w := by
  unfold updateLocalFromRemote
  split <;> rfl

theorem syncBranch_world (w : World) (b : String) :
    (syncBranch w b).1 = w ∨ (syncBranch w b).1 = { w with current := b } := by
  unfold syncBranch
  simp only []
  split
  · left; rfl
  · rw [updateLocalFromRemote_world]
    split
    · right; rfl
    · right; rfl
    · right; rfl

theorem syncBranch_store (w : World) (b : String) :
    (syncBranch w b).1.store = w.store := by
  rcases syncBranch_world w b with h | h <;> rw [h]

theorem syncBranch_localB (w : World) (b : String) :
    (syncBranch w b).1.localB = w.localB := by
  rcases syncBranch_world w b with h | h <;> rw [h]

/-- Unfolding equation for one step of the relaxation pass. -/
theorem syncPassGo_cons (all : List String) (b : String) (rest : List String)
    (w : World) (marks : List (String × SyncOutcome)) (progress : Bool) :
    syncPassGo all (b :: rest) w marks progress =
      if (marks.map Prod.fst).contains b then syncPassGo all rest w marks progress
      else if w.localB b = false then
        syncPassGo all rest w (marks ++ [(b, SyncOutcome.skippedMissing)]) progress
      else if GetParent w.store b = "" ∨ ¬ all.contains (GetParent w.store b) ∨
          (marks.map Prod.fst).contains (GetParent w.store b) then
        ((syncPassGo all rest (syncBranch w b).1
            (marks ++ [(b, match (syncBranch w b).2.2 with
              | Except.ok _ => SyncOutcome.synced
              | Except.error msg => SyncOutcome.failed msg)]) true).1,
         (syncBranch w b).2.1 ++
           (syncPassGo all rest (syncBranch w b).1
             (marks ++ [(b, match (syncBranch w b).2.2 with
               | Except.ok _ => SyncOutcome.synced
               | Except.error msg => SyncOutcome.failed msg)]) true).2.1,
         (syncPassGo all rest (syncBranch w b).1
           (marks ++ [(b, match (syncBranch w b).2.2 with
             | Except.ok _ => SyncOutcome.synced
             | Except.error msg => SyncOutcome.failed msg)]) true).2.2)
      else syncPassGo all rest w marks progress := rfl

theorem syncPassGo_store (all : List String) :
    ∀ (l : List String) (w : World) (marks : List (String × SyncOutcome)) (p : Bool),
      (syncPassGo all l w marks p).1.store = w.store ∧
      (syncPassGo all l w marks p).1.localB = w.localB := by
  intro l
  induction l with
  | nil => intro w marks p; exact ⟨rfl, rfl⟩
  | cons b rest ih =>
    intro w marks p
    rw [syncPassGo_cons]
    split
    · exact ih _ _ _
    · split
      · exact ih _ _ _
      · split
        · constructor
          · rw [(ih _ _ _).1, syncBranch_store]
          · rw [(ih _ _ _).2, syncBranch_localB]
        · exact ih _ _ _

theorem syncPassGo_marks_ext (all : List String) :
    ∀ (l : List String) (w : World) (marks : List (String × SyncOutcome)) (p : Bool),
      ∃ ext, (syncPassGo all l w marks p).2.2.1 = marks ++ ext ∧
        ∀ x ∈ ext, x.1 ∈ l := by
  intro l
  induction l with
  | nil => intro w marks p; exact ⟨[], by simp [syncPassGo], fun x hx => absurd hx (List.not_mem_nil x)⟩
  | cons b rest ih =>
    intro w marks p
    rw [syncPassGo_cons]
    split
    · obtain ⟨ext, h1, h2⟩ := ih w marks p
      exact ⟨ext, h1, fun x hx => List.mem_cons_of_mem b (h2 x hx)⟩
    · split
      · obtain ⟨ext, h1, h2⟩ := ih w (marks ++ [(b, SyncOutcome.skippedMissing)]) p
        refine ⟨(b, SyncOutcome.skippedMissing) :: ext, ?_, ?_⟩
        · rw [h1]
          simp
        · intro x hx
          rcases List.mem_cons.mp hx with rfl | hx
          · exact List.mem_cons_self _ _
          · exact List.mem_cons_of_mem b (h2 x hx)
      · split
        · obtain ⟨ext, h1, h2⟩ := ih (syncBranch w b).1
            (marks ++ [(b, match (syncBranch w b).2.2 with
              | Except.ok _ => SyncOutcome.synced
              | Except.error msg => SyncOutcome.failed msg)]) true
          refine ⟨(b, match (syncBranch w b).2.2 with
              | Except.ok _ => SyncOutcome.synced
              | Except.error msg => SyncOutcome.failed msg) :: ext, ?_, ?_⟩
          · show (syncPassGo all rest (syncBranch w b).1 _ true).2.2.1 = _
            rw [h1]
            simp
          · intro x hx
            rcases List.mem_cons.mp hx with rfl | hx
            · exact List.mem_cons_self _ _
            · exact List.mem_cons_of_mem b (h2 x hx)
        · obtain ⟨ext, h1, h2⟩ := ih w marks p
          exact ⟨ext, h1, fun x hx => List.mem_cons_of_mem b (h2 x hx)⟩

end Stak

namespace Stak

theorem syncPassGo_sticky (all : List String) :
    ∀ (l : List String) (w : World) (marks : List (String × SyncOutcome)),
      (syncPassGo all l w marks true).2.2.2 = true := by
  intro l
  induction l with
  | nil => intro w marks; rfl
  | cons b rest ih =>
    intro w marks
    rw [syncPassGo_cons]
    split
    · exact ih _ _
    · split
      · exact ih _ _
      · split
        · exact ih _ _
        · exact ih _ _

theorem syncPassGo_nodup (all : List String) :
    ∀ (l : List String) (w : World) (marks : List (String × SyncOutcome)) (p : Bool),
      ((marks.map Prod.fst).Nodup) →
      (((syncPassGo all l w marks p).2.2.1.map Prod.fst).Nodup) := by
  intro l
  induction l with
  | nil => intro w marks p h; exact h
  | cons b rest ih =>
    intro w marks p h
    rw [syncPassGo_cons]
    split
    · exact ih _ _ _ h
    · rename_i hmk
      have hbm : b ∉ marks.map Prod.fst := by
        intro hmem
        exact hmk (by simpa using hmem)
      have hnd1 : ((marks ++ [(b, SyncOutcome.skippedMissing)]).map Prod.fst).Nodup := by
        simp only [List.map_append, List.map_cons, List.map_nil]
        rw [List.nodup_append]
        exact ⟨h, List.nodup_singleton b, by simpa using hbm⟩
      split
      · exact ih _ _ _ hnd1
      · split
        · apply ih
          simp only [List.map_append, List.map_cons, List.map_nil]
          rw [List.nodup_append]
          exact ⟨h, List.nodup_singleton b, by simpa using hbm⟩
        · exact ih _ _ _ h

theorem syncPassGo_mono (all : List String) :
    ∀ (l : List String) (w : World) (marks : List (String × SyncOutcome)) (p : Bool),
      marks.length ≤ (syncPassGo all l w marks p).2.2.1.length := by
  intro l w marks p
  obtain ⟨ext, h1, _⟩ := syncPassGo_marks_ext all l w marks p
  rw [h1]
  simp

theorem syncPassGo_keys_mono (all : List String) :
    ∀ (l : List String) (w : World) (marks : List (String × SyncOutcome)) (p : Bool)
      (k : String), k ∈ marks.map Prod.fst →
      k ∈ (syncPassGo all l w marks p).2.2.1.map Prod.fst := by
  intro l w marks p k hk
  obtain ⟨ext, h1, _⟩ := syncPassGo_marks_ext all l w marks p
  rw [h1]
  simp only [List.map_append, List.mem_append]
  exact Or.inl hk

theorem syncPassGo_progress_grows (all : List String) :
    ∀ (l : List String) (w : World) (marks : List (String × SyncOutcome)) (p : Bool),
      (syncPassGo all l w marks p).2.2.2 = true →
      p = true ∨ marks.length < (syncPassGo all l w marks p).2.2.1.length := by
  intro l
  induction l with
  | nil => intro w marks p h; exact Or.inl h
  | cons b rest ih =>
    intro w marks p h
    rw [syncPassGo_cons] at h ⊢
    split at h
    · rename_i hc
      rw [if_pos hc]
      exact ih _ _ _ h
    · rename_i hc
      rw [if_neg hc]
      split at h
      · rename_i hc2
        rw [if_pos hc2]
        rcases ih _ _ _ h with h1 | h1
        · exact Or.inl h1
        · refine Or.inr (lt_of_le_of_lt ?_ h1)
          simp
      · rename_i hc2
        rw [if_neg hc2]
        split at h
        · rename_i hc3
          rw [if_pos hc3]
          refine Or.inr (lt_of_lt_of_le ?_ (syncPassGo_mono all rest _ _ _))
          simp
        · rename_i hc3
          rw [if_neg hc3]
          exact ih _ _ _ h

end Stak

namespace Stak

theorem keys_cover (all keys : List String) (hnd : keys.Nodup)
    (hsub : ∀ k ∈ keys, k ∈ all) (hlen : all.length ≤ keys.length) :
    ∀ b ∈ all, b ∈ keys := by
  have hfsub : keys.toFinset ⊆ all.toFinset := by
    intro x hx
    simp only [List.mem_toFinset] at hx ⊢
    exact hsub x hx
  have hcard : all.toFinset.card ≤ keys.toFinset.card := by
    have h1 : keys.toFinset.card = keys.length := List.toFinset_card_of_nodup hnd
    have h2 : all.toFinset.card ≤ all.length := all.toFinset_card_le
    omega
  have heq : keys.toFinset = all.toFinset :=
    Finset.eq_of_subset_of_card_le hfsub hcard
  intro b hb
  have : b ∈ all.toFinset := by simpa using hb
  rw [← heq] at this
  simpa using this

/-- A pass that reaches an unprocessed, locally existing, eligible branch
reports progress. -/
theorem syncPassGo_progress_of_eligible (all : List String) :
    ∀ (l : List String) (w : World) (marks : List (String × SyncOutcome)) (p : Bool)
      (b : String), b ∈ l → b ∉ marks.map Prod.fst → w.localB b = true →
      (GetParent w.store b = "" ∨ ¬ all.contains (GetParent w.store b) ∨
        (marks.map Prod.fst).contains (GetParent w.store b)) →
      (syncPassGo all l w marks p).2.2.2 = true := by
  intro l
  induction l with
  | nil => intro w marks p b hb; cases hb
  | cons h rest ih =>
    intro w marks p b hb hbm hloc helig
    rw [syncPassGo_cons]
    split
    · rename_i hc
      have hhb : b ≠ h := by
        intro heq
        subst heq
        exact hbm (by simpa using hc)
      have hbr : b ∈ rest := by
        rcases List.mem_cons.mp hb with heq | hr
        · exact absurd heq hhb
        · exact hr
      exact ih w marks p b hbr hbm hloc helig
    · split
      · rename_i hc2
        have hhb : b ≠ h := by
          intro heq
          subst heq
          rw [hloc] at hc2
          cases hc2
      -- continue below
        have hbr : b ∈ rest := by
          rcases List.mem_cons.mp hb with heq | hr
          · exact absurd heq hhb
          · exact hr
        have hbm2 : b ∉ (marks ++ [(h, SyncOutcome.skippedMissing)]).map Prod.fst := by
          simp only [List.map_append, List.map_cons, List.map_nil, List.mem_append,
            List.mem_singleton]
          intro hmem
          rcases hmem with hmem | hmem
          · exact hbm hmem
          · exact hhb hmem
        have helig2 : GetParent w.store b = "" ∨ ¬ all.contains (GetParent w.store b) ∨
            ((marks ++ [(h, SyncOutcome.skippedMissing)]).map Prod.fst).contains
              (GetParent w.store b) := by
          rcases helig with h1 | h1 | h1
          · exact Or.inl h1
          · exact Or.inr (Or.inl h1)
          · refine Or.inr (Or.inr ?_)
            have hmem : GetParent w.store b ∈ marks.map Prod.fst := by simpa using h1
            simp only [List.map_append, List.map_cons, List.map_nil]
            simpa using Or.inl hmem
        exact ih w _ p b hbr hbm2 hloc helig2
      · split
        · exact syncPassGo_sticky all rest _ _
        · rename_i hc3
          have hhb : b ≠ h := by
            intro heq
            subst heq
            exact hc3 helig
          have hbr : b ∈ rest := by
            rcases List.mem_cons.mp hb with heq | hr
            · exact absurd heq hhb
            · exact hr
          exact ih w marks p b hbr hbm hloc helig

/-- On an acyclic store with nonempty branch names, any incomplete marking
leaves some unprocessed branch eligible. -/
theorem exists_eligible (w : World) (all : List String)
    (marks : List (String × SyncOutcome))
    (hne : "" ∉ all) (hacyc : Acyclic w.store)
    (b0 : String) (hb0 : b0 ∈ all) (hb0m : b0 ∉ marks.map Prod.fst) :
    ∃ b, b ∈ all ∧ b ∉ marks.map Prod.fst ∧
      (GetParent w.store b = "" ∨ ¬ all.contains (GetParent w.store b) ∨
        (marks.map Prod.fst).contains (GetParent w.store b)) := by
  by_contra hno
  push_neg at hno
  have hstep : ∀ b, b ∈ all → b ∉ marks.map Prod.fst →
      GetParent w.store b ≠ "" ∧ GetParent w.store b ∈ all ∧
        GetParent w.store b ∉ marks.map Prod.fst := by
    intro b hb hbm
    have h := hno b hb hbm
    push_neg at h
    obtain ⟨h1, h2, h3⟩ := h
    exact ⟨h1, by simpa using h2, fun hmem => h3 (by simpa using hmem)⟩
  have hchain : ∀ k, parentIter w.store k b0 ∈ all ∧
      parentIter w.store k b0 ∉ marks.map Prod.fst := by
    intro k
    induction k with
    | zero => exact ⟨hb0, hb0m⟩
    | succ k ihk =>
      obtain ⟨hin, hnm⟩ := ihk
      obtain ⟨hp1, hp2, hp3⟩ := hstep _ hin hnm
      have hkne : parentIter w.store k b0 ≠ "" := fun h => hne (h ▸ hin)
      rw [parentIter_succ_end]
      unfold parentStep
      rw [if_neg hkne]
      exact ⟨hp2, hp3⟩
  have hnt : ¬ Terminates w.store b0 := by
    rintro ⟨n, hn⟩
    have := (hchain n).1
    rw [hn] at this
    exact hne this
  exact hnt (hacyc b0)

end Stak

namespace Stak

/-- Unfolding equation for one iteration of the relaxation loop. -/
theorem syncLoop_succ (all : List String) (rem : Nat) (w : World)
    (marks : List (String × SyncOutcome)) :
    syncLoop all (rem + 1) w marks =
      if marks.length < all.length then
        (if (syncPassGo all all w marks false).2.2.2 then
          ((syncLoop all rem (syncPassGo all all w marks false).1
              (syncPassGo all all w marks false).2.2.1).1,
           (syncPassGo all all w marks false).2.1 ++
             (syncLoop all rem (syncPassGo all all w marks false).1
               (syncPassGo all all w marks false).2.2.1).2.1,
           (syncLoop all rem (syncPassGo all all w marks false).1
             (syncPassGo all all w marks false).2.2.1).2.2.1,
           (syncLoop all rem (syncPassGo all all w marks false).1
             (syncPassGo all all w marks false).2.2.1).2.2.2 + 1)
        else ((syncPassGo all all w marks false).1,
          (syncPassGo all all w marks false).2.1,
          (syncPassGo all all w marks false).2.2.1, 1))
      else (w, [], marks, 0) := rfl

/-- The relaxation loop runs at most N passes for N tracked branches. -/
theorem syncLoop_passes_le (all : List String) :
    ∀ (rem : Nat) (w : World) (marks : List (String × SyncOutcome)),
      ((marks.map Prod.fst).Nodup) → (∀ k ∈ marks.map Prod.fst, k ∈ all) →
      (syncLoop all rem w marks).2.2.2 ≤ all.length - marks.length := by
  intro rem
  induction rem with
  | zero => intro w marks _ _; exact Nat.zero_le _
  | succ rem ih =>
    intro w marks hnd hsub
    rw [syncLoop_succ]
    split
    · rename_i hlt
      have hnd1 : (((syncPassGo all all w marks false).2.2.1.map Prod.fst).Nodup) :=
        syncPassGo_nodup all all w marks false hnd
      have hsub1 : ∀ k ∈ (syncPassGo all all w marks false).2.2.1.map Prod.fst, k ∈ all := by
        obtain ⟨ext, h1, h2⟩ := syncPassGo_marks_ext all all w marks false
        rw [h1]
        intro k hk
        simp only [List.map_append, List.mem_append] at hk
        rcases hk with hk | hk
        · exact hsub k hk
        · obtain ⟨x, hx, rfl⟩ := List.mem_map.mp hk
          exact (h2 x hx)
      split
      · rename_i hprog
        have hgrow := syncPassGo_progress_grows all all w marks false hprog
        rcases hgrow with hgrow | hgrow
        · cases hgrow
        · have hrec := ih (syncPassGo all all w marks false).1
            (syncPassGo all all w marks false).2.2.1 hnd1 hsub1
          show (syncLoop all rem (syncPassGo all all w marks false).1
            (syncPassGo all all w marks false).2.2.1).2.2.2 + 1 ≤ all.length - marks.length
          omega
      · show (1 : Nat) ≤ all.length - marks.length
        omega
    · rename_i hge
      exact Nat.zero_le _

/-- When every tracked branch exists locally, the names are nonempty and the
stored parent relation is acyclic, the loop classifies every branch. -/
theorem syncLoop_classifies (all : List String) (hne : "" ∉ all) :
    ∀ (rem : Nat) (w : World) (marks : List (String × SyncOutcome)),
      (∀ b ∈ all, w.localB b = true) → Acyclic w.store →
      ((marks.map Prod.fst).Nodup) → (∀ k ∈ marks.map Prod.fst, k ∈ all) →
      all.length - marks.length ≤ rem →
      ∀ b ∈ all, b ∈ (syncLoop all rem w marks).2.2.1.map Prod.fst := by
  intro rem
  induction rem with
  | zero =>
    intro w marks hloc hacyc hnd hsub hrem b hb
    have hlen : all.length ≤ marks.length := by omega
    exact keys_cover all (marks.map Prod.fst) hnd hsub (by simpa using hlen) b hb
  | succ rem ih =>
    intro w marks hloc hacyc hnd hsub hrem b hb
    rw [syncLoop_succ]
    split
    · rename_i hlt
      have hnd1 : (((syncPassGo all all w marks false).2.2.1.map Prod.fst).Nodup) :=
        syncPassGo_nodup all all w marks false hnd
      have hsub1 : ∀ k ∈ (syncPassGo all all w marks false).2.2.1.map Prod.fst, k ∈ all := by
        obtain ⟨ext, h1, h2⟩ := syncPassGo_marks_ext all all w marks false
        rw [h1]
        intro k hk
        simp only [List.map_append, List.mem_append] at hk
        rcases hk with hk | hk
        · exact hsub k hk
        · obtain ⟨x, hx, rfl⟩ := List.mem_map.mp hk
          exact (h2 x hx)
      split
      · rename_i hprog
        have hgrow := syncPassGo_progress_grows all all w marks false hprog
        rcases hgrow with hgrow | hgrow
        · cases hgrow
        · have hpres := syncPassGo_store all all w marks false
          refine ih (syncPassGo all all w marks false).1
            (syncPassGo all all w marks false).2.2.1 ?_ ?_ hnd1 hsub1 (by omega) b hb
          · intro b2 hb2
            rw [hpres.2]
            exact hloc b2 hb2
          · rw [hpres.1]
            exact hacyc
      · rename_i hprog
        -- a no-progress pass means every branch was already marked
        have hall : ∀ b2 ∈ all, b2 ∈ marks.map Prod.fst := by
          intro b2 hb2
          by_contra hnm
          obtain ⟨b3, hb3, hb3m, helig⟩ :=
            exists_eligible w all marks hne hacyc b2 hb2 hnm
          have := syncPassGo_progress_of_eligible all all w marks false b3 hb3 hb3m
            (hloc b3 hb3) helig
          rw [this] at hprog
          exact hprog rfl
        exact syncPassGo_keys_mono all all w marks false b (hall b hb)
    · rename_i hge
      have hlen : all.length ≤ marks.length := by omega
      exact keys_cover all (marks.map Prod.fst) hnd hsub (by simpa using hlen) b hb

end Stak

namespace Stak

/-- Two tracked branches where C depends on tracked X, but X has no local
copy and sits after C in the branch list. -/
def droppedWorld : World :=
  World.mk [("C", ⟨"X", 0, ""⟩), ("X", ⟨"main", 0, ""⟩)] "C"
    (fun b => if b = "X" then false else true) (fun _ => true)
    (fun _ => Option.none) (fun _ _ => RebaseResult.ok)

/-- A fully present two-branch stack on main. -/
def relaxWorld : World :=
  World.mk [("A", ⟨"main", 1, ""⟩), ("Bb", ⟨"A", 2, ""⟩)] "Bb"
    (fun _ => true) (fun _ => true)
    (fun _ => Option.none) (fun _ _ => RebaseResult.ok)

theorem relaxWorld_acyclic : Acyclic relaxWorld.store := by
  intro x
  refine ⟨3, ?_⟩
  by_cases h1 : x = "A"
  · subst h1
    decide
  by_cases h2 : x = "Bb"
  · subst h2
    decide
  by_cases h3 : x = ""
  · subst h3
    decide
  have hlook : lookupMeta relaxWorld.store x = BranchMeta.none := by
    show lookupMeta [("A", ⟨"main", 1, ""⟩), ("Bb", ⟨"A", 2, ""⟩)] x = BranchMeta.none
    simp [lookupMeta, h1, h2]
  have hstep : parentStep relaxWorld.store x = "" := by
    unfold parentStep
    rw [if_neg h3]
    unfold GetParent
    rw [hlook]
    rfl
  show parentIter relaxWorld.store 2 (parentStep relaxWorld.store x) = ""
  rw [hstep]
  decide

end Stak

/-- Counterexample to C7: with tracked branches [C, X] where C's parent is
the tracked branch X and X has no local copy, the first pass marks X as
processed without setting the progress flag (the nonexistent-branch arm
does not count as progress), so the loop stops and C — although eligible on
the next pass — is never classified at all. -/
theorem claim_C7_counterexample_silent_drop :
    "C" ∈ Stak.allStackBranches Stak.droppedWorld.store ∧
    ((Stak.syncLoop (Stak.allStackBranches Stak.droppedWorld.store)
        ((Stak.allStackBranches Stak.droppedWorld.store).length + 1)
        Stak.droppedWorld []).2.2.1.map Prod.fst = ["X"]) ∧
    "C" ∉ ((Stak.syncLoop (Stak.allStackBranches Stak.droppedWorld.store)
        ((Stak.allStackBranches Stak.droppedWorld.store).length + 1)
        Stak.droppedWorld []).2.2.1.map Prod.fst) := by
  refine ⟨by decide, by decide, by decide⟩

/-- C7 as amended: the relaxation loop of `runSync` always terminates within
N passes for N tracked branches; and provided every tracked branch has a
nonempty name and a local copy and the stored parent relation is acyclic,
every tracked branch ends up classified (marked with an outcome).  Without
the local-copy proviso a pass can mark branches while reporting no
progress, and the loop then drops the still-pending dependents silently. -/
theorem claim_C7_relaxation_amended (w : Stak.World) (all : List String)
    (hne : "" ∉ all)
    (hloc : ∀ b ∈ all, w.localB b = true)
    (hacyc : Stak.Acyclic w.store) :
    (Stak.syncLoop all (all.length + 1) w []).2.2.2 ≤ all.length ∧
    (∀ b ∈ all, b ∈ (Stak.syncLoop all (all.length + 1) w []).2.2.1.map Prod.fst) := by
  constructor
  · have h := Stak.syncLoop_passes_le all (all.length + 1) w [] (by simp) (by simp)
    simpa using h
  · exact Stak.syncLoop_classifies all hne (all.length + 1) w [] hloc hacyc
      (by simp) (by simp) (by omega)

/-- Witness for the amended C7 on a two-branch stack. -/
theorem claim_C7_relaxation_amended_witness :
    ("" ∉ Stak.allStackBranches Stak.relaxWorld.store) ∧
    (∀ b ∈ Stak.allStackBranches Stak.relaxWorld.store, Stak.relaxWorld.localB b = true) ∧
    ((Stak.syncLoop (Stak.allStackBranches Stak.relaxWorld.store)
        ((Stak.allStackBranches Stak.relaxWorld.store).length + 1)
        Stak.relaxWorld []).2.2.2 ≤ (Stak.allStackBranches Stak.relaxWorld.store).length ∧
     (∀ b ∈ Stak.allStackBranches Stak.relaxWorld.store,
       b ∈ (Stak.syncLoop (Stak.allStackBranches Stak.relaxWorld.store)
          ((Stak.allStackBranches Stak.relaxWorld.store).length + 1)
          Stak.relaxWorld []).2.2.1.map Prod.fst)) :=
  ⟨by decide, fun b hb => rfl,
   claim_C7_relaxation_amended Stak.relaxWorld
     (Stak.allStackBranches Stak.relaxWorld.store)
     (by decide) (fun b hb => rfl) Stak.relaxWorld_acyclic⟩
